import Mathlib

/-!
Verification of the etcd MVCC store (`mvcc/kvstore.go`).

The development shallowly embeds the store's data model and the operations
`Compact`, `restore`, `restoreChunk`, `saveIndex` and `Commit` as executable
Lean functions, and proves the specification claims about them.

Machine integers are modelled as `Int`/`Nat` with explicit `% 2^64`
conversions where the Go code converts between `int64` and `uint64`.
Byte slices are modelled as `List Nat` with every entry below 256.
-/

namespace Etcd

/-! ## Byte-level primitives

`beBytes n v` is the big-endian encoding of `v` into `n` bytes
(`binary.BigEndian.PutUint64` with `n = 8`); `beVal` is the corresponding
decoder (`binary.BigEndian.Uint64`).  `byteLt` is Go's `bytes.Compare _ _ < 0`:
strict lexicographic order on byte slices, a proper prefix being smaller. -/

def beBytes : Nat → Nat → List Nat
  | 0, _ => []
  | n + 1, v => v / 256 ^ n :: beBytes n (v % 256 ^ n)

def beVal (bs : List Nat) : Nat := bs.foldl (fun a b => a * 256 + b) 0

def byteLt : List Nat → List Nat → Bool
  | [], [] => false
  | [], _ :: _ => true
  | _ :: _, [] => false
  | a :: as, b :: bs => if a < b then true else if b < a then false else byteLt as bs

/-! ## Revisions and their on-disk encoding (`mvcc/revision.go` semantics as
used by `kvstore.go`)

A revision is a pair of Go `int64`s.  `revToBytes` writes `main` and `sub` as
two big-endian `uint64`s (16 bytes total); `bytesToRev` is the inverse.
`u64` is Go's `uint64(x)` conversion of an `int64`, `toInt64` the reverse. -/

structure Revision where
  main : Int
  sub : Int
deriving DecidableEq, Repr

def u64 (x : Int) : Nat := (x % ((2 : Int) ^ 64)).toNat

def toInt64 (u : Nat) : Int := if u < 2 ^ 63 then (u : Int) else (u : Int) - 2 ^ 64

def revToBytes (r : Revision) : List Nat := beBytes 8 (u64 r.main) ++ beBytes 8 (u64 r.sub)

def bytesToRev (bs : List Nat) : Revision :=
  ⟨toInt64 (beVal (bs.take 8)), toInt64 (beVal ((bs.drop 8).take 8))⟩

/-- Strict order on revisions: lexicographic on `(main, sub)`
(the order the spec's §3 prescribes and `revision.GreaterThan` implements). -/

def revLtP (a b : Revision) : Prop :=
  a.main < b.main ∨ (a.main = b.main ∧ a.sub < b.sub)

instance : DecidablePred fun p : Revision × Revision => revLtP p.1 p.2 := by
  intro p; unfold revLtP; infer_instance

instance (a b : Revision) : Decidable (revLtP a b) := by
  unfold revLtP; infer_instance

def revLeP (a b : Revision) : Prop := revLtP a b ∨ a = b

instance (a b : Revision) : Decidable (revLeP a b) := by
  unfold revLeP; infer_instance

/-- An `int64` in range `[0, 2^63)`. -/

def i63 (x : Int) : Prop := 0 ≤ x ∧ x < 2 ^ 63

/-! ## Revision keys in the `key` bucket

A row key is either the 16-byte encoding of a revision (a live row) or that
encoding followed by the marker byte `'t' = 116` (a tombstone,
`appendMarkTombstone` / `isTombstone` in `kvstore.go`). -/

structure RevKey where
  main : Int
  sub : Int
  tomb : Bool
deriving DecidableEq, Repr

def RevKey.rev (k : RevKey) : Revision := ⟨k.main, k.sub⟩

/-- `markTombstone byte = 't'` (`kvstore.go` line 55). -/

def tombMark : Nat := 116

def encodeKey (k : RevKey) : List Nat :=
  revToBytes k.rev ++ (if k.tomb then [tombMark] else [])

/-- `isTombstone` (`kvstore.go` lines 411-414): length 17 and the 17th byte is
the mark. -/

def isTombstone (bs : List Nat) : Bool := bs.length == 17 && bs.getD 16 0 == tombMark

/-- Well-formed row key: the bounds every row written by the store satisfies
(`main` starts at 1, `sub` small; both far from `int64` overflow). -/

def WFKey (k : RevKey) : Prop :=
  1 ≤ k.main ∧ k.main < 2 ^ 63 ∧ 0 ≤ k.sub ∧ k.sub + 1 < 2 ^ 63

instance (k : RevKey) : Decidable (WFKey k) := by
  unfold WFKey; infer_instance

/-- `restore`'s scan bounds (`kvstore.go` lines 254-256):
`min = rev(main:1)`, `max = rev(MaxInt64, MaxInt64)`. -/

def minRevBytes : List Nat := revToBytes ⟨1, 0⟩

def maxRevBytes : List Nat := revToBytes ⟨2 ^ 63 - 1, 2 ^ 63 - 1⟩

/-! ## Buckets and bucket-key names (`kvstore.go` lines 33-39)

The byte lists are the ASCII codes of `"key"`, `"meta"`, `"consistent_index"`,
`"scheduledCompactRev"` and `"finishedCompactRev"`. -/

def keyBucketName : List Nat := [107, 101, 121]

def metaBucketName : List Nat := [109, 101, 116, 97]

def consistentIndexKeyName : List Nat :=
  [99, 111, 110, 115, 105, 115, 116, 101, 110, 116, 95, 105, 110, 100, 101, 120]

def scheduledCompactKeyName : List Nat :=
  [115, 99, 104, 101, 100, 117, 108, 101, 100, 67, 111, 109, 112, 97, 99, 116, 82, 101, 118]

def finishedCompactKeyName : List Nat :=
  [102, 105, 110, 105, 115, 104, 101, 100, 67, 111, 109, 112, 97, 99, 116, 82, 101, 118]

/-! ## Association-list maps

Go maps and the point-lookup face of a backend bucket are modelled as
association lists observed only through `lookupA`; `setA` binds a key
(replacing any previous binding), `eraseA` removes it. -/

def lookupA {α : Type} (l : List (List Nat × α)) (k : List Nat) : Option α :=
  (l.find? (fun p => p.1 == k)).map (fun p => p.2)

def eraseA {α : Type} (l : List (List Nat × α)) (k : List Nat) : List (List Nat × α) :=
  l.filter (fun p => !(p.1 == k))

def setA {α : Type} (l : List (List Nat × α)) (k : List Nat) (v : α) :
    List (List Nat × α) :=
  (k, v) :: eraseA l k

/-! ## Stored values and rows

`KeyValue` is a decoded `mvccpb.KeyValue` record (the protobuf `Unmarshal` is
external generated code, so rows carry the decoded record).  A row of the
`key` bucket pairs a revision key with its record. -/

structure KeyValue where
  key : List Nat
  value : List Nat
  createRev : Int
  version : Int
  lease : Int
deriving DecidableEq, Repr

abbrev Row := RevKey × KeyValue

def rowRev (r : Row) : Revision := r.1.rev

/-! ## The in-memory key index

Modelled from the spec: `keyIndex`, `generation` and the tree index live in
`mvcc/key_index.go` / `mvcc/index.go`, which are outside the provided window.
Spec §3: a key-index record holds the user key and an ordered sequence of
generations; a generation is `{version-at-end, created-revision, revisions[]}`;
a tombstone closes the current generation and starts a new empty one.
Spec §4.2 gives `Put`, `Tombstone`, `Compact` and restore semantics. -/

structure generation where
  ver : Int
  created : Revision
  revs : List Revision
deriving DecidableEq, Repr

structure keyIndex where
  key : List Nat
  modified : Revision
  generations : List generation
deriving DecidableEq, Repr

/-- Modelled from the spec (§4.2 `Put`): append `rev` to the current (last)
generation, creating it if needed; a generation's `created` is its first
revision; bump the version counter. -/
def pushRev (g : generation) (rev : Revision) : generation :=
  { ver := g.ver + 1
    created := if g.revs.isEmpty then rev else g.created
    revs := g.revs ++ [rev] }

/-- Modelled from the spec (§4.2 `Put`). -/
def keyIndex.putRev (ki : keyIndex) (main sub : Int) : keyIndex :=
  let rev : Revision := ⟨main, sub⟩
  match ki.generations.reverse with
  | [] => { ki with modified := rev, generations := [pushRev ⟨0, ⟨0, 0⟩, []⟩ rev] }
  | g :: rest => { ki with modified := rev, generations := (pushRev g rev :: rest).reverse }

/-- Modelled from the spec (§3, §4.2 `Tombstone`): append the tombstone
revision to the current generation, then start a new empty generation. -/
def keyIndex.tombstoneRev (ki : keyIndex) (main sub : Int) : keyIndex :=
  let ki' := ki.putRev main sub
  { ki' with generations := ki'.generations ++ [⟨0, ⟨0, 0⟩, []⟩] }

/-- Modelled from the spec (§4.4.6 step 3): a provisional record built by
`restoreChunk` for a key first seen at `modified`, carrying the stored
create-revision and version. -/
def keyIndex.restoreRec (key : List Nat) (created modified : Revision) (ver : Int) :
    keyIndex :=
  { key := key, modified := modified, generations := [⟨ver, created, [modified]⟩] }

/-- All revisions recorded in a key-index record, in generation order. -/
def keyIndex.allRevs (ki : keyIndex) : List Revision :=
  (ki.generations.map generation.revs).flatten

/-- Modelled from the spec (§4.2 `Compact`): the revisions `≤ atRev` of one
generation that must be preserved — the greatest revision `≤ atRev`, when the
generation reaches past `atRev` or is the key's current generation. -/
def generation.keepAt (g : generation) (atRev : Int) (isLast : Bool) : List Revision :=
  match (g.revs.filter (fun r => decide (r.main ≤ atRev))).getLast? with
  | none => []
  | some mx => if g.revs.any (fun r => decide (atRev < r.main)) || isLast then [mx] else []

/-- Modelled from the spec (§4.2 `Compact`): compacting one generation keeps
the preserved revision `≤ atRev` plus everything newer; a closed generation
left empty disappears. -/
def generation.compactAt (g : generation) (atRev : Int) (isLast : Bool) :
    List generation :=
  let kept := g.keepAt atRev isLast ++ g.revs.filter (fun r => decide (atRev < r.main))
  if kept.isEmpty && !isLast then [] else [{ g with revs := kept }]

/-- Modelled from the spec (§4.2 `Compact`): the preserved revisions of one
record. -/
def keyIndex.keepAt (ki : keyIndex) (atRev : Int) : List Revision :=
  match ki.generations.reverse with
  | [] => []
  | last :: older =>
      (older.reverse.map (fun g => g.keepAt atRev false)).flatten
        ++ last.keepAt atRev true

/-- Modelled from the spec (§4.2 `Compact`), per record. -/
def keyIndex.compactAt (ki : keyIndex) (atRev : Int) : Option keyIndex :=
  match ki.generations.reverse with
  | [] => none
  | last :: older =>
      let gens := (older.reverse.map (fun g => g.compactAt atRev false)).flatten
        ++ last.compactAt atRev true
      if gens.all (fun g => g.revs.isEmpty) then none
      else some { ki with generations := gens }

/-- Modelled from the spec (§4.2): the ordered key index, as a list of records
keyed by user key. -/
abbrev TreeIndex := List keyIndex

/-- Modelled from the spec (§4.4.6 step 3): ordered-map insert of a record,
replacing any record with the same user key. -/
def TreeIndex.insertKi (ti : TreeIndex) (ki : keyIndex) : TreeIndex :=
  if (ti.find? (fun x => x.key == ki.key)).isSome then
    ti.map (fun x => if x.key == ki.key then ki else x)
  else ti ++ [ki]

/-- Modelled from the spec (§4.2 `Compact`): the retained set returned to the
compaction sweep. -/
def TreeIndex.compactKeep (ti : TreeIndex) (atRev : Int) : List Revision :=
  (ti.map (fun ki => ki.keepAt atRev)).flatten

/-- Modelled from the spec (§4.2 `Compact`): the compacted index. -/
def TreeIndex.compactIdx (ti : TreeIndex) (atRev : Int) : TreeIndex :=
  ti.filterMap (fun ki => ki.compactAt atRev)

/-! ## The store

`Store` carries the fields of `kvstore.go`'s `store` struct that the verified
operations touch, with the backend inlined (`meta` bucket as an association
list, `key` bucket as the row list) and the FIFO scheduler's queue as data.
Channels are numbered by a fresh counter; `closedChs` records which channel
numbers have been closed (none of the verified operations closes inline). -/

inductive Job where
  | compactBarrier (ch : Nat)
  | compactSweep (rev : Int) (keep : List Revision) (ch : Nat)
deriving DecidableEq, Repr

inductive Err where
  | compacted
  | futureRev
deriving DecidableEq, Repr

/-- Observable backend / scheduler effects of one operation, in program
order. -/
inductive Action where
  | setCompactMainRev (rev : Int)
  | metaPut (key val : List Nat)
  | forceCommit
  | indexCompact (rev : Int)
  | scheduleJob (j : Job)
deriving DecidableEq, Repr

structure Store where
  currentRev : Int
  compactMainRev : Int
  kvindex : TreeIndex
  meta : List (List Nat × List Nat)
  keyRows : List Row
  consistentIndex : Nat
  fifoSched : List Job
  closedChs : List Nat
  nextCh : Nat
deriving DecidableEq, Repr

/-- The struct literal of `NewStore` (`kvstore.go` lines 106-120) before
`restore` runs: `currentRev = 1`, `compactMainRev = -1`, fresh index, fresh
scheduler.  The backend contents are a parameter. -/
def NewStoreInit (meta : List (List Nat × List Nat)) (rows : List Row) : Store :=
  { currentRev := 1
    compactMainRev := -1
    kvindex := []
    meta := meta
    keyRows := rows
    consistentIndex := 0
    fifoSched := []
    closedChs := []
    nextCh := 0 }

/-- `store.Compact` (`kvstore.go` lines 163-211).  Returns the new store, the
returned channel (`none` models Go's `nil` channel), the returned error, and
the trace of effects in program order. -/
def Store.Compact (s : Store) (rev : Int) :
    Store × Option Nat × Option Err × List Action :=
  if rev ≤ s.compactMainRev then
    let ch := s.nextCh
    ({ s with nextCh := ch + 1, fifoSched := s.fifoSched ++ [Job.compactBarrier ch] },
     some ch, some Err.compacted, [Action.scheduleJob (Job.compactBarrier ch)])
  else if s.currentRev < rev then
    (s, none, some Err.futureRev, [])
  else
    let rbytes := revToBytes ⟨rev, 0⟩
    let keep := s.kvindex.compactKeep rev
    let ch := s.nextCh
    ({ s with
        compactMainRev := rev
        meta := setA s.meta scheduledCompactKeyName rbytes
        kvindex := s.kvindex.compactIdx rev
        nextCh := ch + 1
        fifoSched := s.fifoSched ++ [Job.compactSweep rev keep ch] },
     some ch, none,
     [Action.setCompactMainRev rev,
      Action.metaPut scheduledCompactKeyName rbytes,
      Action.forceCommit,
      Action.indexCompact rev,
      Action.scheduleJob (Job.compactSweep rev keep ch)])

/-- `store.saveIndex` (`kvstore.go` lines 374-385).  The
`ConsistentIndexGetter` is an external interface; the value it currently
reports is passed as `ig`, with `none` modelling a nil getter (`s.ig == nil`).
With a getter, `saveIndex` writes the value as 8 big-endian bytes under
`meta/consistent_index` in the already-locked batch transaction and stores the
same value into the atomic `consistentIndex` cache; with a nil getter it does
nothing. -/
def Store.saveIndex (s : Store) (ig : Option Nat) : Store :=
  match ig with
  | none => s
  | some ci =>
      { s with
          meta := setA s.meta consistentIndexKeyName (beBytes 8 ci)
          consistentIndex := ci }

/-- `store.Commit` (`kvstore.go` lines 224-233): lock, `saveIndex`,
force-commit. -/
def Store.Commit (s : Store) (ig : Option Nat) : Store := s.saveIndex ig

/-- A run of commits, one per getter value. -/
def commitSeq (s : Store) (vals : List Nat) : Store :=
  vals.foldl (fun st v => st.Commit (some v)) s

/-- The number currently persisted under `meta/consistent_index`. -/
def persistedCI (s : Store) : Option Nat :=
  (lookupA s.meta consistentIndexKeyName).map beVal

/-! ## Restore (`kvstore.go` lines 235-366)

The scan loop is embedded with explicit fuel; that the fuel `|rows| + 1`
always suffices is claim C9.  The rows handed to `restoreChunk` are recorded
in the accumulator's `processed` trace. -/

/-- `restoreChunkKeys = 10000` (`kvstore.go` line 57). -/
def restoreChunkKeys : Nat := 10000

/-- Per-chunk fold state of `restoreChunk`: the store's `currentRev`, the
chunk-local `unordered` map from user key to provisional record, and the
shared `keyToLease` map. -/
structure ChunkState where
  currentRev : Int
  unordered : List (List Nat × keyIndex)
  keyToLease : List (List Nat × Int)
deriving DecidableEq, Repr

/-- One iteration of `restoreChunk`'s row loop (`kvstore.go` lines 337-364):
decode the revision from the first 16 key bytes, set `currentRev` to its
`main`; a tombstone row updates an existing provisional record (if any) and
deletes the key's lease binding; a put row extends or creates the record and
rebinds or deletes the lease according to the stored lease id. -/
def chunkStep (st : ChunkState) (r : Row) : ChunkState :=
  let key := encodeKey r.1
  let kv := r.2
  let rev := bytesToRev (key.take 16)
  let kstr := kv.key
  if isTombstone key then
    { currentRev := rev.main
      unordered :=
        match lookupA st.unordered kstr with
        | some ki => setA st.unordered kstr (ki.tombstoneRev rev.main rev.sub)
        | none => st.unordered
      keyToLease := eraseA st.keyToLease kstr }
  else
    { currentRev := rev.main
      unordered :=
        match lookupA st.unordered kstr with
        | some ki => setA st.unordered kstr (ki.putRev rev.main rev.sub)
        | none => setA st.unordered kstr
            (keyIndex.restoreRec kv.key ⟨kv.createRev, 0⟩ rev kv.version)
      keyToLease :=
        if kv.lease ≠ 0 then setA st.keyToLease kstr kv.lease
        else eraseA st.keyToLease kstr }

/-- `store.restoreChunk` (`kvstore.go` lines 334-366): fold the rows of one
chunk starting from a fresh `unordered` map. -/
def restoreChunkF (cur : Int) (rows : List Row) (ktl : List (List Nat × Int)) :
    ChunkState :=
  rows.foldl chunkStep ⟨cur, [], ktl⟩

/-- Cross-chunk state of `restore`'s scan loop, with the trace of rows handed
to `restoreChunk`. -/
structure RestoreAcc where
  currentRev : Int
  kvindex : TreeIndex
  keyToLease : List (List Nat × Int)
  processed : List Row
deriving DecidableEq, Repr

/-- Processing one chunk (`kvstore.go` lines 280-283 and 291): run
`restoreChunk` with a fresh `unordered` map, then insert every produced record
into the tree index. -/
def applyChunk (acc : RestoreAcc) (chunk : List Row) : RestoreAcc :=
  let st := restoreChunkF acc.currentRev chunk acc.keyToLease
  { currentRev := st.currentRev
    kvindex := (st.unordered.map (fun p => p.2)).foldl TreeIndex.insertKi acc.kvindex
    keyToLease := st.keyToLease
    processed := acc.processed ++ chunk }

/-- `tx.UnsafeRange(keyBucketName, mn, mx, limit)` over the modelled `key`
bucket: the stored rows whose encoded key lies in `[mn, mx)` in byte order, in
stored order, up to `limit` rows (`restore` always passes
`restoreChunkKeys`). -/
def rangeRows (rows : List Row) (mn mx : List Nat) (limit : Nat) : List Row :=
  (rows.filter
    (fun r => !byteLt (encodeKey r.1) mn && byteLt (encodeKey r.1) mx)).take limit

/-- `restore`'s chunked scan loop (`kvstore.go` lines 285-300): range at most
`restoreChunkKeys` rows from `mn`; an empty chunk ends the loop; every
non-empty chunk is handed to `restoreChunk`; a short chunk is final; otherwise
the next `mn` is the chunk's last revision with `sub+1`. -/
def restoreLoop : Nat → List Row → List Nat → RestoreAcc → Option RestoreAcc
  | 0, _, _, _ => none
  | fuel + 1, rows, mn, acc =>
      if (rangeRows rows mn maxRevBytes restoreChunkKeys).isEmpty then some acc
      else if (rangeRows rows mn maxRevBytes restoreChunkKeys).length
          < restoreChunkKeys then
        some (applyChunk acc (rangeRows rows mn maxRevBytes restoreChunkKeys))
      else
        match (rangeRows rows mn maxRevBytes restoreChunkKeys).getLast? with
        | none => some (applyChunk acc (rangeRows rows mn maxRevBytes restoreChunkKeys))
        | some lastR =>
            restoreLoop fuel rows
              (revToBytes ⟨(bytesToRev ((encodeKey lastR.1).take 16)).main,
                           (bytesToRev ((encodeKey lastR.1).take 16)).sub + 1⟩)
              (applyChunk acc (rangeRows rows mn maxRevBytes restoreChunkKeys))

/-- `compactMainRev` as `restore` seeds it from `meta/finishedCompactRev`
(`kvstore.go` lines 263-267; when the entry is absent the field keeps its
reset value `-1`). -/
def seedCompactRev (s : Store) : Int :=
  match lookupA s.meta finishedCompactKeyName with
  | some bs => (bytesToRev bs).main
  | none => s.compactMainRev

/-- The `main` revision `restore` reads from `meta/scheduledCompactRev`
(`kvstore.go` lines 268-272; `0` when the entry is absent). -/
def schedRaw (s : Store) : Int :=
  match lookupA s.meta scheduledCompactKeyName with
  | some bs => (bytesToRev bs).main
  | none => 0

/-- `store.restore` (`kvstore.go` lines 253-332): seed `compactMainRev` from
`meta/finishedCompactRev`, remember `meta/scheduledCompactRev`, scan the `key`
bucket in chunks rebuilding the index and `currentRev`, lift `currentRev` to
`compactMainRev` if the scan left it smaller, zero the remembered revision
when it is `≤ compactMainRev`, and re-submit `Compact(scheduledCompact)` when
it remained non-zero.  Returns the resulting store and the re-submitted
revision; `none` only on fuel exhaustion (claim C9 rules that out for
well-formed buckets). -/
def Store.restoreFn (s : Store) : Option (Store × Option Int) :=
  (restoreLoop (s.keyRows.length + 1) s.keyRows minRevBytes
      ⟨s.currentRev, s.kvindex, [], []⟩).map (fun acc =>
    let cmr := seedCompactRev s
    let sc0 := schedRaw s
    let cur := if acc.currentRev < cmr then cmr else acc.currentRev
    let sc := if sc0 ≤ cmr then 0 else sc0
    let s' : Store :=
      { s with currentRev := cur, compactMainRev := cmr, kvindex := acc.kvindex }
    if sc ≠ 0 then ((s'.Compact sc).1, some sc) else (s', none))

/-- The `currentRev` left by the scan: the `main` of the last row the chunked
scan visited (`restoreChunk` assigns each scanned row's `main` in ascending
order), or the reset value if the bucket is empty. -/
def scanCur (s : Store) : Int :=
  (s.keyRows.map (fun r => r.1.main)).getLastD s.currentRev

/-- The rows of the bucket whose revision is `≥ mr` — what a full scan from
`mr` visits. -/
def rowsFrom (mr : Revision) (rows : List Row) : List Row :=
  rows.filter (fun r => decide (revLeP mr (rowRev r)))

/-- The largest `main` revision appearing among the rows (`0` for an empty
bucket; every stored row has `main ≥ 1`). -/
def largestMain (rows : List Row) : Int :=
  rows.foldl (fun a r => max a r.1.main) 0

/-- The user keys bound in an association map. -/
def mapKeys {α : Type} (un : List (List Nat × α)) : List (List Nat) :=
  un.map (fun p => p.1)

/-- Every revision recorded across the records of an `unordered` map. -/
def chunkRevs (un : List (List Nat × keyIndex)) : List Revision :=
  (un.map (fun p => p.2.allRevs)).flatten

/-! ## Theorems -/

theorem length_beBytes (n v : Nat) : (beBytes n v).length = n := by
  induction n generalizing v with
  | zero => rfl
  | succ n ih => simp [beBytes, ih]

theorem foldl_be (t : List Nat) :
    ∀ a : Nat, t.foldl (fun x y => x * 256 + y) a
      = a * 256 ^ t.length + t.foldl (fun x y => x * 256 + y) 0 := by
  induction t with
  | nil => intro a; simp
  | cons h t ih =>
      intro a
      simp only [List.foldl_cons, List.length_cons]
      rw [ih (a * 256 + h), ih (0 * 256 + h)]
      ring

theorem beVal_cons (h : Nat) (t : List Nat) :
    beVal (h :: t) = h * 256 ^ t.length + beVal t := by
  simp only [beVal, List.foldl_cons]
  rw [foldl_be]
  ring_nf

theorem beVal_beBytes {n v : Nat} (hv : v < 256 ^ n) : beVal (beBytes n v) = v := by
  induction n generalizing v with
  | zero =>
      simp only [pow_zero, Nat.lt_one_iff] at hv
      simp [beBytes, beVal, hv]
  | succ n ih =>
      have hmod : v % 256 ^ n < 256 ^ n := Nat.mod_lt _ (Nat.pos_pow_of_pos n (by norm_num))
      simp only [beBytes, beVal_cons, length_beBytes, ih hmod]
      exact Nat.div_add_mod' v (256 ^ n)

theorem byteLt_nil (l : List Nat) : byteLt l [] = false := by
  cases l <;> rfl

theorem byteLt_irrefl (l : List Nat) : byteLt l l = false := by
  induction l with
  | nil => rfl
  | cons x xs ih => simp [byteLt, ih]

theorem byteLt_asymm : ∀ {a b : List Nat}, byteLt a b = true → byteLt b a = false
  | [], [], h => by simp [byteLt] at h
  | [], _ :: _, _ => rfl
  | _ :: _, [], h => by simp [byteLt] at h
  | x :: xs, y :: ys, h => by
      simp only [byteLt] at h ⊢
      rcases Nat.lt_trichotomy x y with h1 | h1 | h1
      · rw [if_neg (by omega : ¬ y < x), if_pos h1]
      · subst h1
        rw [if_neg (lt_irrefl x), if_neg (lt_irrefl x)] at h ⊢
        exact byteLt_asymm h
      · rw [if_neg (by omega : ¬ x < y), if_pos h1] at h
        simp at h

theorem byteLt_append_left : ∀ {a b : List Nat}, a.length = b.length →
    byteLt a b = true → ∀ (c d : List Nat), byteLt (a ++ c) (b ++ d) = true
  | [], [], _, h, _, _ => by simp [byteLt] at h
  | [], _ :: _, h, _, _, _ => by simp at h
  | _ :: _, [], h, _, _, _ => by simp at h
  | x :: xs, y :: ys, hl, h, c, d => by
      simp only [List.length_cons, add_left_inj] at hl
      simp only [byteLt, List.cons_append] at h ⊢
      rcases Nat.lt_trichotomy x y with h1 | h1 | h1
      · rw [if_pos h1]
      · subst h1
        rw [if_neg (lt_irrefl x), if_neg (lt_irrefl x)] at h ⊢
        exact byteLt_append_left hl h c d
      · rw [if_neg (by omega : ¬ x < y), if_pos h1] at h
        simp at h

theorem byteLt_append_same : ∀ (a c d : List Nat),
    byteLt (a ++ c) (a ++ d) = byteLt c d
  | [], _, _ => rfl
  | x :: xs, c, d => by
      simp only [List.cons_append, byteLt, lt_irrefl, if_false]
      exact byteLt_append_same xs c d

theorem byteLt_beBytes {n u v : Nat} (hu : u < 256 ^ n) (hv : v < 256 ^ n) :
    byteLt (beBytes n u) (beBytes n v) = true ↔ u < v := by
  induction n generalizing u v with
  | zero =>
      simp only [pow_zero, Nat.lt_one_iff] at hu hv
      subst hu; subst hv
      simp [beBytes, byteLt]
  | succ n ih =>
      have hq : 0 < 256 ^ n := Nat.pos_pow_of_pos n (by norm_num)
      have humod : u % 256 ^ n < 256 ^ n := Nat.mod_lt _ hq
      have hvmod : v % 256 ^ n < 256 ^ n := Nat.mod_lt _ hq
      have hudm : 256 ^ n * (u / 256 ^ n) + u % 256 ^ n = u := Nat.div_add_mod u _
      have hvdm : 256 ^ n * (v / 256 ^ n) + v % 256 ^ n = v := Nat.div_add_mod v _
      simp only [beBytes, byteLt]
      split_ifs with h1 h2
      · -- u / q < v / q, hence u < v
        simp only [true_iff]
        have h3 : 256 ^ n * (u / 256 ^ n) + 256 ^ n ≤ 256 ^ n * (v / 256 ^ n) := by
          have h4 : 256 ^ n * (u / 256 ^ n + 1) ≤ 256 ^ n * (v / 256 ^ n) :=
            Nat.mul_le_mul_left _ (by omega)
          rwa [Nat.mul_succ] at h4
        omega
      · -- v / q < u / q, hence ¬ u < v
        simp only [false_iff, not_lt]
        have h3 : 256 ^ n * (v / 256 ^ n) + 256 ^ n ≤ 256 ^ n * (u / 256 ^ n) := by
          have h4 : 256 ^ n * (v / 256 ^ n + 1) ≤ 256 ^ n * (u / 256 ^ n) :=
            Nat.mul_le_mul_left _ (by omega)
          rwa [Nat.mul_succ] at h4
        omega
      · -- equal leading bytes: recurse on the big-endian tails
        have hd : u / 256 ^ n = v / 256 ^ n := by omega
        rw [ih humod hvmod]
        rw [hd] at hudm
        generalize 256 ^ n * (v / 256 ^ n) = X at hudm hvdm
        omega

theorem u64_of_i63 {x : Int} (h : i63 x) : u64 x = x.toNat := by
  obtain ⟨h0, h1⟩ := h
  unfold u64
  rw [Int.emod_eq_of_lt h0 (by omega)]

theorem u64_lt_pow {x : Int} (h : i63 x) : u64 x < 256 ^ 8 := by
  rw [u64_of_i63 h]
  have : (256 : Nat) ^ 8 = 2 ^ 64 := by norm_num
  obtain ⟨h0, h1⟩ := h
  omega

theorem toInt64_u64 {x : Int} (h : i63 x) : toInt64 (u64 x) = x := by
  have h2 := u64_of_i63 h
  obtain ⟨h0, h1⟩ := h
  unfold toInt64
  rw [h2, if_pos (by omega)]
  omega

theorem u64_lt_iff {x y : Int} (hx : i63 x) (hy : i63 y) : u64 x < u64 y ↔ x < y := by
  rw [u64_of_i63 hx, u64_of_i63 hy]
  obtain ⟨hx0, _⟩ := hx; obtain ⟨hy0, _⟩ := hy
  omega

theorem u64_inj {x y : Int} (hx : i63 x) (hy : i63 y) (h : u64 x = u64 y) : x = y := by
  rw [u64_of_i63 hx, u64_of_i63 hy] at h
  obtain ⟨hx0, _⟩ := hx; obtain ⟨hy0, _⟩ := hy
  omega

theorem length_revToBytes (r : Revision) : (revToBytes r).length = 16 := by
  simp [revToBytes, length_beBytes]

theorem beBytes_inj {n u v : Nat} (hu : u < 256 ^ n) (hv : v < 256 ^ n)
    (h : beBytes n u = beBytes n v) : u = v := by
  have := beVal_beBytes hu
  rw [h, beVal_beBytes hv] at this
  omega

/-- Big-endian revision encodings compare, bytewise, exactly as the revisions
compare in the `(main, sub)` lexicographic order (spec §3: "backend iteration
order equals revision order"). -/

theorem byteLt_revToBytes {r1 r2 : Revision}
    (h1 : i63 r1.main) (h2 : i63 r1.sub) (h3 : i63 r2.main) (h4 : i63 r2.sub) :
    byteLt (revToBytes r1) (revToBytes r2) = true ↔ revLtP r1 r2 := by
  unfold revToBytes
  constructor
  · intro h
    by_contra hn
    rcases Nat.lt_trichotomy (u64 r1.main) (u64 r2.main) with hm | hm | hm
    · exact hn (Or.inl ((u64_lt_iff h1 h3).mp hm))
    · have hmain : r1.main = r2.main := u64_inj h1 h3 hm
      rw [hm, byteLt_append_same] at h
      have hsub : r1.sub < r2.sub := (u64_lt_iff h2 h4).mp
        ((byteLt_beBytes (u64_lt_pow h2) (u64_lt_pow h4)).mp h)
      exact hn (Or.inr ⟨hmain, hsub⟩)
    · have hb : byteLt (beBytes 8 (u64 r2.main)) (beBytes 8 (u64 r1.main)) = true :=
        (byteLt_beBytes (u64_lt_pow h3) (u64_lt_pow h1)).mpr hm
      have := byteLt_append_left (by simp [length_beBytes]) hb
        (beBytes 8 (u64 r2.sub)) (beBytes 8 (u64 r1.sub))
      rw [byteLt_asymm this] at h
      exact absurd h (by simp)
  · intro h
    rcases h with hm | ⟨hm, hs⟩
    · exact byteLt_append_left (by simp [length_beBytes])
        ((byteLt_beBytes (u64_lt_pow h1) (u64_lt_pow h3)).mpr ((u64_lt_iff h1 h3).mpr hm)) _ _
    · rw [hm, byteLt_append_same]
      exact (byteLt_beBytes (u64_lt_pow h2) (u64_lt_pow h4)).mpr ((u64_lt_iff h2 h4).mpr hs)

theorem take_len_append {α : Type} (a b : List α) (n : Nat) (h : a.length = n) :
    (a ++ b).take n = a := by
  subst h; exact List.take_left a b

theorem drop_len_append {α : Type} (a b : List α) (n : Nat) (h : a.length = n) :
    (a ++ b).drop n = b := by
  subst h; exact List.drop_left a b

theorem bytesToRev_revToBytes {r : Revision} (h1 : i63 r.main) (h2 : i63 r.sub) :
    bytesToRev (revToBytes r) = r := by
  unfold bytesToRev revToBytes
  rw [take_len_append _ _ _ (length_beBytes _ _), drop_len_append _ _ _ (length_beBytes _ _)]
  rw [List.take_of_length_le (by rw [length_beBytes])]
  rw [beVal_beBytes (u64_lt_pow h1), beVal_beBytes (u64_lt_pow h2)]
  rw [toInt64_u64 h1, toInt64_u64 h2]

theorem WFKey.main_i63 {k : RevKey} (h : WFKey k) : i63 k.main := by
  obtain ⟨h1, h2, h3, h4⟩ := h
  exact ⟨by omega, h2⟩

theorem WFKey.sub_i63 {k : RevKey} (h : WFKey k) : i63 k.sub := by
  obtain ⟨h1, h2, h3, h4⟩ := h
  exact ⟨h3, by omega⟩

theorem WFKey.rev_main_i63 {k : RevKey} (h : WFKey k) : i63 k.rev.main := h.main_i63

theorem WFKey.rev_sub_i63 {k : RevKey} (h : WFKey k) : i63 k.rev.sub := h.sub_i63

theorem length_encodeKey (k : RevKey) :
    (encodeKey k).length = if k.tomb then 17 else 16 := by
  unfold encodeKey
  cases k.tomb <;> simp [length_revToBytes]

theorem isTombstone_encodeKey (k : RevKey) : isTombstone (encodeKey k) = k.tomb := by
  have hlen : (revToBytes k.rev).length = 16 := length_revToBytes _
  unfold isTombstone encodeKey
  cases h : k.tomb
  · simp [length_revToBytes]
  · simp only [if_true]
    rw [List.getD_append_right _ _ _ _ (by omega)]
    simp [hlen, length_revToBytes]

theorem take16_encodeKey (k : RevKey) : (encodeKey k).take 16 = revToBytes k.rev := by
  unfold encodeKey
  cases k.tomb
  · simp only [if_neg Bool.false_ne_true, List.append_nil]
    exact List.take_of_length_le (by rw [length_revToBytes])
  · exact take_len_append _ _ _ (length_revToBytes _)

/-! ### Order bridges between byte comparison and revision order -/

theorem revLtP_trichotomy (a b : Revision) : revLtP a b ∨ a = b ∨ revLtP b a := by
  obtain ⟨am, as'⟩ := a; obtain ⟨bm, bs'⟩ := b
  unfold revLtP
  simp only [Revision.mk.injEq]
  omega

theorem revLtP_irrefl (a : Revision) : ¬ revLtP a a := by
  unfold revLtP; omega

theorem revLtP_asymm {a b : Revision} (h : revLtP a b) : ¬ revLtP b a := by
  unfold revLtP at *; omega

theorem revLtP_trans {a b c : Revision} (h1 : revLtP a b) (h2 : revLtP b c) :
    revLtP a c := by
  unfold revLtP at *
  obtain ⟨am, as'⟩ := a; obtain ⟨bm, bs'⟩ := b; obtain ⟨cm, cs'⟩ := c
  simp only at *
  omega

theorem not_revLtP_iff {a b : Revision} : ¬ revLtP a b ↔ revLeP b a := by
  unfold revLeP revLtP
  obtain ⟨am, as'⟩ := a; obtain ⟨bm, bs'⟩ := b
  simp only [Revision.mk.injEq]
  omega

/-- The key byte-comparison against a 16-byte revision bound decodes to
revision order: a row key (live or tombstone) is byte-below `revToBytes m`
exactly when its revision is below `m`. -/

theorem byteLt_encodeKey_rev {k : RevKey} {m : Revision}
    (hk : WFKey k) (hm1 : i63 m.main) (hm2 : i63 m.sub) :
    byteLt (encodeKey k) (revToBytes m) = true ↔ revLtP k.rev m := by
  unfold encodeKey
  rcases revLtP_trichotomy k.rev m with h | h | h
  · simp only [h, iff_true]
    have hb : byteLt (revToBytes k.rev) (revToBytes m) = true :=
      (byteLt_revToBytes hk.rev_main_i63 hk.rev_sub_i63 hm1 hm2).mpr h
    have := byteLt_append_left (a := revToBytes k.rev) (b := revToBytes m)
      (by simp [length_revToBytes]) hb (if k.tomb then [tombMark] else []) []
    rwa [List.append_nil] at this
  · rw [← h]
    simp only [revLtP_irrefl, iff_false]
    have : byteLt (revToBytes k.rev ++ (if k.tomb then [tombMark] else []))
        (revToBytes k.rev ++ []) = byteLt (if k.tomb then [tombMark] else []) [] :=
      byteLt_append_same _ _ _
    rw [List.append_nil] at this
    rw [this, byteLt_nil]
    simp
  · simp only [revLtP_asymm h, iff_false]
    have hb : byteLt (revToBytes m) (revToBytes k.rev) = true :=
      (byteLt_revToBytes hm1 hm2 hk.rev_main_i63 hk.rev_sub_i63).mpr h
    have h2 := byteLt_append_left (a := revToBytes m) (b := revToBytes k.rev)
      (by simp [length_revToBytes]) hb [] (if k.tomb then [tombMark] else [])
    rw [List.append_nil] at h2
    rw [byteLt_asymm h2]
    simp

/-- Every well-formed row key is strictly byte-below the scan's `max` bound. -/

theorem byteLt_encodeKey_max {k : RevKey} (hk : WFKey k) :
    byteLt (encodeKey k) maxRevBytes = true := by
  unfold maxRevBytes
  rw [byteLt_encodeKey_rev hk ⟨by norm_num, by norm_num⟩ ⟨by norm_num, by norm_num⟩]
  obtain ⟨h1, h2, h3, h4⟩ := hk
  show k.main < 2 ^ 63 - 1 ∨ (k.main = 2 ^ 63 - 1 ∧ k.sub < 2 ^ 63 - 1)
  omega

theorem lookupA_setA {α : Type} (l : List (List Nat × α)) (k : List Nat) (v : α) :
    lookupA (setA l k v) k = some v := by
  unfold lookupA setA
  simp [List.find?]

/-! ### Claims C1-C3: `store.Compact` -/

/-- **C1.** For every store state and every revision `rev` with
`compactMainRev < rev` and `rev > currentRev`, `Compact(rev)` returns a nil
channel and the *FutureRev* error, and leaves the whole store — in particular
`compactMainRev`, `currentRev`, the key index, the meta bucket (no
`scheduledCompactRev` write) and the job queue (no job scheduled) — unchanged,
with an empty effect trace. -/
theorem Compact_futureRev (s : Store) (rev : Int)
    (h1 : s.compactMainRev < rev) (h2 : s.currentRev < rev) :
    s.Compact rev = (s, none, some Err.futureRev, []) := by
  unfold Store.Compact
  rw [if_neg (by omega), if_pos h2]

def store0 : Store := NewStoreInit [] []

theorem Compact_futureRev_witness :
    store0.Compact 5 = (store0, none, some Err.futureRev, []) :=
  Compact_futureRev store0 5 (by decide) (by decide)

/-- **C2.** For every revision `rev ≤ compactMainRev`, `Compact(rev)` returns
a (non-nil) fresh channel together with the *Compacted* error; the channel is
handed to the FIFO scheduler inside a compact-barrier job rather than closed
inline (the closed-channel set is untouched), and `compactMainRev` is not
modified. -/
theorem Compact_compacted (s : Store) (rev : Int) (h : rev ≤ s.compactMainRev) :
    ∃ ch : Nat,
      (s.Compact rev).2.1 = some ch ∧
      (s.Compact rev).2.2.1 = some Err.compacted ∧
      (s.Compact rev).1.fifoSched = s.fifoSched ++ [Job.compactBarrier ch] ∧
      (s.Compact rev).1.closedChs = s.closedChs ∧
      (s.Compact rev).1.compactMainRev = s.compactMainRev ∧
      (s.Compact rev).1.currentRev = s.currentRev ∧
      (s.Compact rev).1.kvindex = s.kvindex ∧
      (s.Compact rev).1.meta = s.meta ∧
      (s.Compact rev).2.2.2 = [Action.scheduleJob (Job.compactBarrier ch)] := by
  refine ⟨s.nextCh, ?_⟩
  unfold Store.Compact
  rw [if_pos h]
  exact ⟨rfl, rfl, rfl, rfl, rfl, rfl, rfl, rfl, rfl⟩

def store1 : Store :=
  { NewStoreInit [] [] with currentRev := 9, compactMainRev := 4 }

theorem Compact_compacted_witness :
    ∃ ch : Nat,
      (store1.Compact 3).2.1 = some ch ∧
      (store1.Compact 3).2.2.1 = some Err.compacted ∧
      (store1.Compact 3).1.fifoSched = store1.fifoSched ++ [Job.compactBarrier ch] ∧
      (store1.Compact 3).1.closedChs = store1.closedChs ∧
      (store1.Compact 3).1.compactMainRev = store1.compactMainRev ∧
      (store1.Compact 3).1.currentRev = store1.currentRev ∧
      (store1.Compact 3).1.kvindex = store1.kvindex ∧
      (store1.Compact 3).1.meta = store1.meta ∧
      (store1.Compact 3).2.2.2 = [Action.scheduleJob (Job.compactBarrier ch)] :=
  Compact_compacted store1 3 (by decide)

/-- **C3.** For every `rev` with `compactMainRev < rev ≤ currentRev`,
`Compact(rev)` performs, in program order: set `compactMainRev = rev`; put the
16-byte encoding of revision `(main = rev, sub = 0)` under
`meta/scheduledCompactRev`; force-commit the backend; compute the retained set
via the key index's `Compact(rev)`; and only then schedule the backend sweep
job (carrying exactly that retained set and the returned channel) on the FIFO
scheduler — returning a non-nil channel and no error. -/
theorem Compact_inRange (s : Store) (rev : Int)
    (h1 : s.compactMainRev < rev) (h2 : rev ≤ s.currentRev) :
    ∃ ch : Nat,
      (s.Compact rev).2.1 = some ch ∧
      (s.Compact rev).2.2.1 = none ∧
      (s.Compact rev).2.2.2 =
        [Action.setCompactMainRev rev,
         Action.metaPut scheduledCompactKeyName (revToBytes ⟨rev, 0⟩),
         Action.forceCommit,
         Action.indexCompact rev,
         Action.scheduleJob (Job.compactSweep rev (s.kvindex.compactKeep rev) ch)] ∧
      (revToBytes ⟨rev, 0⟩).length = 16 ∧
      (s.Compact rev).1.compactMainRev = rev ∧
      lookupA (s.Compact rev).1.meta scheduledCompactKeyName =
        some (revToBytes ⟨rev, 0⟩) ∧
      (s.Compact rev).1.fifoSched =
        s.fifoSched ++ [Job.compactSweep rev (s.kvindex.compactKeep rev) ch] ∧
      (s.Compact rev).1.currentRev = s.currentRev := by
  refine ⟨s.nextCh, ?_⟩
  unfold Store.Compact
  rw [if_neg (by omega), if_neg (by omega)]
  refine ⟨rfl, rfl, rfl, length_revToBytes _, rfl, ?_, rfl, rfl⟩
  exact lookupA_setA _ _ _

theorem Compact_inRange_witness :
    ∃ ch : Nat,
      (store1.Compact 7).2.1 = some ch ∧
      (store1.Compact 7).2.2.1 = none ∧
      (store1.Compact 7).2.2.2 =
        [Action.setCompactMainRev 7,
         Action.metaPut scheduledCompactKeyName (revToBytes ⟨7, 0⟩),
         Action.forceCommit,
         Action.indexCompact 7,
         Action.scheduleJob (Job.compactSweep 7 (store1.kvindex.compactKeep 7) ch)] ∧
      (revToBytes ⟨7, 0⟩).length = 16 ∧
      (store1.Compact 7).1.compactMainRev = 7 ∧
      lookupA (store1.Compact 7).1.meta scheduledCompactKeyName =
        some (revToBytes ⟨7, 0⟩) ∧
      (store1.Compact 7).1.fifoSched =
        store1.fifoSched ++ [Job.compactSweep 7 (store1.kvindex.compactKeep 7) ch] ∧
      (store1.Compact 7).1.currentRev = store1.currentRev :=
  Compact_inRange store1 7 (by decide) (by decide)

/-! ### Claims C7-C8: the consistent index -/

/-- **C7.** Whenever `saveIndex` runs with a non-nil `ConsistentIndexGetter`
reporting `v`, it writes exactly 8 big-endian bytes decoding back to `v` under
`meta/consistent_index` and stores the same `v` into the atomic cache, so that
afterwards the cache and the staged backend entry agree; with a nil getter,
`saveIndex` writes nothing and leaves the cache (and the whole store)
unchanged. -/
theorem saveIndex_spec (s : Store) (v : Nat) (hv : v < 2 ^ 64) :
    (lookupA (s.saveIndex (some v)).meta consistentIndexKeyName
        = some (beBytes 8 v) ∧
      (beBytes 8 v).length = 8 ∧
      beVal (beBytes 8 v) = v ∧
      (s.saveIndex (some v)).consistentIndex = v ∧
      persistedCI (s.saveIndex (some v)) =
        some ((s.saveIndex (some v)).consistentIndex)) ∧
    s.saveIndex none = s := by
  have h8 : v < 256 ^ 8 := by
    have h256 : (256 : Nat) ^ 8 = 2 ^ 64 := by norm_num
    omega
  constructor
  · refine ⟨lookupA_setA _ _ _, length_beBytes _ _, beVal_beBytes h8, rfl, ?_⟩
    show (lookupA (setA s.meta consistentIndexKeyName (beBytes 8 v))
        consistentIndexKeyName).map beVal = _
    rw [lookupA_setA]
    show some (beVal (beBytes 8 v)) = some v
    rw [beVal_beBytes h8]
  · rfl

theorem saveIndex_spec_witness :
    (lookupA (store0.saveIndex (some 12345)).meta consistentIndexKeyName
        = some (beBytes 8 12345) ∧
      (beBytes 8 12345).length = 8 ∧
      beVal (beBytes 8 12345) = 12345 ∧
      (store0.saveIndex (some 12345)).consistentIndex = 12345 ∧
      persistedCI (store0.saveIndex (some 12345)) =
        some ((store0.saveIndex (some 12345)).consistentIndex)) ∧
    store0.saveIndex none = store0 :=
  saveIndex_spec store0 12345 (by norm_num)

/-- **C8, counterexample.** As stated the claim fails on the code: `saveIndex`
persists whatever the getter reports, with no monotonicity enforcement.  With
getter values 5 then 3 across two commits of one store, the persisted
`meta/consistent_index` goes from 5 down to 3. -/
theorem consistentIndex_decrease_cex :
    persistedCI (commitSeq store0 [5]) = some 5 ∧
    persistedCI (commitSeq store0 [5, 3]) = some 3 ∧
    ¬ (5 : Nat) ≤ 3 := by
  refine ⟨?_, ?_, by decide⟩ <;> decide

theorem commitSeq_append (s : Store) (l1 l2 : List Nat) :
    commitSeq s (l1 ++ l2) = commitSeq (commitSeq s l1) l2 :=
  List.foldl_append _ _ _ _

theorem persistedCI_commitSeq (s : Store) :
    ∀ l : List Nat, l ≠ [] → (∀ v ∈ l, v < 2 ^ 64) →
      persistedCI (commitSeq s l) = l.getLast? := by
  intro l
  induction l generalizing s with
  | nil => intro h; exact absurd rfl h
  | cons x rest ih =>
      intro _ hb
      cases rest with
      | nil =>
          have hx : x < 256 ^ 8 := by
            have h256 : (256 : Nat) ^ 8 = 2 ^ 64 := by norm_num
            have := hb x (by simp)
            omega
          show persistedCI ((s.Commit (some x))) = some x
          unfold persistedCI Store.Commit Store.saveIndex
          rw [lookupA_setA]
          simp [beVal_beBytes hx]
      | cons y t =>
          have h1 : commitSeq s (x :: y :: t) = commitSeq (s.Commit (some x)) (y :: t) := rfl
          rw [h1, ih (s.Commit (some x)) (by simp) (fun v hv => hb v (by simp [hv]))]
          simp

theorem chain_le_getLast :
    ∀ (l2 l1 : List Nat), l1 ≠ [] → List.Chain' (· ≤ ·) (l1 ++ l2) →
      ∃ a b, l1.getLast? = some a ∧ (l1 ++ l2).getLast? = some b ∧ a ≤ b := by
  intro l2
  induction l2 with
  | nil =>
      intro l1 hne _
      obtain ⟨a, ha⟩ := List.getLast?_isSome.mpr hne |> Option.isSome_iff_exists.mp
      exact ⟨a, a, ha, by simpa using ha, le_refl a⟩
  | cons y t ih =>
      intro l1 hne hch
      obtain ⟨a, ha⟩ := List.getLast?_isSome.mpr hne |> Option.isSome_iff_exists.mp
      have hay : a ≤ y := by
        rcases (List.chain'_append.mp hch) with ⟨_, _, hlink⟩
        exact hlink a ha y rfl
      have hassoc : l1 ++ y :: t = (l1 ++ [y]) ++ t := by simp
      have hch' : List.Chain' (· ≤ ·) ((l1 ++ [y]) ++ t) := by rwa [hassoc] at hch
      obtain ⟨a', b, ha', hb, hab⟩ := ih (l1 ++ [y]) (by simp) hch'
      have hay' : a' = y := by
        rw [List.getLast?_append_cons] at ha'
        simp at ha'
        omega
      refine ⟨a, b, ha, ?_, ?_⟩
      · rwa [hassoc]
      · omega

/-- **C8, amended.** Provided the `ConsistentIndexGetter`'s reported values
are nondecreasing across the run (the consistent index is a replicated-log
offset, which only advances), the value persisted under
`meta/consistent_index` never decreases across commits: after any further
commits the persisted value is at least the one persisted after any earlier
prefix.  The code itself writes the getter's value verbatim and enforces no
monotonicity (see the counterexample). -/
theorem consistentIndex_monotone (s : Store) (l1 l2 : List Nat)
    (hne : l1 ≠ []) (hch : List.Chain' (· ≤ ·) (l1 ++ l2))
    (hb : ∀ v ∈ l1 ++ l2, v < 2 ^ 64) :
    ∃ a b, persistedCI (commitSeq s l1) = some a ∧
      persistedCI (commitSeq s (l1 ++ l2)) = some b ∧ a ≤ b := by
  obtain ⟨a, b, ha, hb', hab⟩ := chain_le_getLast l2 l1 hne hch
  refine ⟨a, b, ?_, ?_, hab⟩
  · rw [persistedCI_commitSeq s l1 hne (fun v hv => hb v (by simp [hv]))]
    exact ha
  · rw [persistedCI_commitSeq s (l1 ++ l2) (by simp [hne]) hb]
    exact hb'

theorem consistentIndex_monotone_witness :
    ∃ a b, persistedCI (commitSeq store0 [2]) = some a ∧
      persistedCI (commitSeq store0 ([2] ++ [3, 7])) = some b ∧ a ≤ b :=
  consistentIndex_monotone store0 [2] [3, 7] (by decide)
    (by norm_num [List.chain'_cons]) (by decide)

/-! ### Revision-order helper lemmas -/

theorem revLeP_refl (a : Revision) : revLeP a a := Or.inr rfl

theorem revLeP_trans {a b c : Revision} (h1 : revLeP a b) (h2 : revLeP b c) :
    revLeP a c := by
  unfold revLeP revLtP at *
  obtain ⟨am, as'⟩ := a; obtain ⟨bm, bs'⟩ := b; obtain ⟨cm, cs'⟩ := c
  simp only [Revision.mk.injEq] at *
  omega

theorem revLeP_of_ltP {a b : Revision} (h : revLtP a b) : revLeP a b := Or.inl h

theorem revLtP_of_leP_ltP {a b c : Revision} (h1 : revLeP a b) (h2 : revLtP b c) :
    revLtP a c := by
  unfold revLeP revLtP at *
  obtain ⟨am, as'⟩ := a; obtain ⟨bm, bs'⟩ := b; obtain ⟨cm, cs'⟩ := c
  simp only [Revision.mk.injEq] at *
  omega

theorem not_revLeP_of_ltP {a b : Revision} (h : revLtP a b) : ¬ revLeP b a := by
  unfold revLeP revLtP at *
  obtain ⟨am, as'⟩ := a; obtain ⟨bm, bs'⟩ := b
  simp only [Revision.mk.injEq] at *
  omega

theorem revLtP_succSub {L b : Revision} :
    revLtP L b ↔ revLeP ⟨L.main, L.sub + 1⟩ b := by
  unfold revLeP revLtP
  obtain ⟨lm, ls⟩ := L; obtain ⟨bm, bs'⟩ := b
  simp only [Revision.mk.injEq]
  omega

theorem revLtP_succSub_self (L : Revision) : revLtP L ⟨L.main, L.sub + 1⟩ := by
  unfold revLtP
  right
  refine ⟨rfl, ?_⟩
  show L.sub < L.sub + 1
  omega

/-! ### The restore scan -/

/-- The backend range predicate on a well-formed key, decoded: a row is in
`[revToBytes mr, maxRevBytes)` exactly when its revision is `≥ mr`. -/
theorem rangePred_eq {k : RevKey} {mr : Revision} (hk : WFKey k)
    (hm1 : i63 mr.main) (hm2 : i63 mr.sub) :
    (!byteLt (encodeKey k) (revToBytes mr) && byteLt (encodeKey k) maxRevBytes)
      = decide (revLeP mr k.rev) := by
  rw [byteLt_encodeKey_max hk, Bool.and_true]
  by_cases hp : revLeP mr k.rev
  · have hnlt : ¬ revLtP k.rev mr := not_revLtP_iff.mpr hp
    have hfalse : byteLt (encodeKey k) (revToBytes mr) = false := by
      cases hbe : byteLt (encodeKey k) (revToBytes mr)
      · rfl
      · exact absurd ((byteLt_encodeKey_rev hk hm1 hm2).mp hbe) hnlt
    rw [hfalse, decide_eq_true hp]
    rfl
  · have hlt : revLtP k.rev mr := by
      by_contra hc
      exact hp (not_revLtP_iff.mp hc)
    rw [(byteLt_encodeKey_rev hk hm1 hm2).mpr hlt, decide_eq_false hp]
    rfl

theorem rangeRows_eq_filter (rows : List Row) (mr : Revision) (limit : Nat)
    (hw : ∀ r ∈ rows, WFKey r.1) (hm1 : i63 mr.main) (hm2 : i63 mr.sub) :
    rangeRows rows (revToBytes mr) maxRevBytes limit
      = (rowsFrom mr rows).take limit := by
  unfold rangeRows rowsFrom
  congr 1
  apply List.filter_congr
  intro r hr
  exact rangePred_eq (hw r hr) hm1 hm2

theorem decodeKeyRev {k : RevKey} (hk : WFKey k) :
    bytesToRev ((encodeKey k).take 16) = k.rev := by
  rw [take16_encodeKey]
  exact bytesToRev_revToBytes hk.rev_main_i63 hk.rev_sub_i63

theorem processed_applyChunk (acc : RestoreAcc) (chunk : List Row) :
    (applyChunk acc chunk).processed = acc.processed ++ chunk := rfl

theorem currentRev_chunkStep (st : ChunkState) (r : Row) :
    (chunkStep st r).currentRev = (bytesToRev ((encodeKey r.1).take 16)).main := by
  cases h : isTombstone (encodeKey r.1) <;> simp [chunkStep, h]

theorem currentRev_chunkFold (rows : List Row) :
    ∀ st : ChunkState, (rows.foldl chunkStep st).currentRev
      = (rows.map (fun r => (bytesToRev ((encodeKey r.1).take 16)).main)).getLastD
          st.currentRev := by
  induction rows with
  | nil => intro st; rfl
  | cons r t ih =>
      intro st
      rw [List.foldl_cons, ih, List.map_cons, List.getLastD_cons, currentRev_chunkStep]

theorem currentRev_applyChunk (acc : RestoreAcc) (chunk : List Row) :
    (applyChunk acc chunk).currentRev
      = (chunk.map (fun r => (bytesToRev ((encodeKey r.1).take 16)).main)).getLastD
          acc.currentRev := by
  unfold applyChunk restoreChunkF
  exact currentRev_chunkFold chunk _

theorem getLastD_append {α : Type} (l1 l2 : List α) (d : α) :
    (l1 ++ l2).getLastD d = l2.getLastD (l1.getLastD d) := by
  induction l1 generalizing d with
  | nil => rfl
  | cons x t ih => rw [List.cons_append, List.getLastD_cons, List.getLastD_cons, ih]

theorem currentRev_foldl_applyChunk (cs : List (List Row)) :
    ∀ acc : RestoreAcc, (cs.foldl applyChunk acc).currentRev
      = (cs.flatten.map
          (fun r => (bytesToRev ((encodeKey r.1).take 16)).main)).getLastD
          acc.currentRev := by
  induction cs with
  | nil => intro acc; rfl
  | cons c t ih =>
      intro acc
      rw [List.foldl_cons, ih, List.flatten_cons, List.map_append, getLastD_append,
        currentRev_applyChunk]

theorem processed_foldl_applyChunk (cs : List (List Row)) :
    ∀ acc : RestoreAcc, (cs.foldl applyChunk acc).processed
      = acc.processed ++ cs.flatten := by
  induction cs with
  | nil => intro acc; simp
  | cons c t ih =>
      intro acc
      rw [List.foldl_cons, ih, processed_applyChunk, List.flatten_cons, List.append_assoc]

/-- The central decomposition of `restore`'s scan: with enough fuel, the loop
returns, and the chunks it hands to `restoreChunk` concatenate to exactly the
rows `≥ mr`, in order. -/
theorem restoreLoop_done (rows : List Row)
    (hw : ∀ r ∈ rows, WFKey r.1)
    (hp : rows.Pairwise (fun a b => revLtP (rowRev a) (rowRev b))) :
    ∀ (fuel : Nat) (mr : Revision), i63 mr.main → i63 mr.sub →
      (rowsFrom mr rows).length < fuel →
      ∀ acc : RestoreAcc,
        ∃ cs : List (List Row), cs.flatten = rowsFrom mr rows ∧
          restoreLoop fuel rows (revToBytes mr) acc = some (cs.foldl applyChunk acc) := by
  intro fuel
  induction fuel with
  | zero => intro mr _ _ hlen acc; omega
  | succ fuel ih =>
      intro mr hm1 hm2 hlen acc
      have hchunk : rangeRows rows (revToBytes mr) maxRevBytes restoreChunkKeys
          = (rowsFrom mr rows).take restoreChunkKeys :=
        rangeRows_eq_filter rows mr restoreChunkKeys hw hm1 hm2
      by_cases hnil : rowsFrom mr rows = []
      · refine ⟨[], by simp [hnil], ?_⟩
        simp only [restoreLoop, hchunk, hnil, List.take_nil]
        rfl
      · have hie : (rowsFrom mr rows).isEmpty = false := by
          cases hE : (rowsFrom mr rows).isEmpty
          · rfl
          · exact absurd (List.isEmpty_iff.mp hE) hnil
        by_cases hshort : (rowsFrom mr rows).length < restoreChunkKeys
        · have htake : (rowsFrom mr rows).take restoreChunkKeys = rowsFrom mr rows :=
            List.take_of_length_le (le_of_lt hshort)
          refine ⟨[rowsFrom mr rows], by simp, ?_⟩
          simp only [restoreLoop, hchunk, htake, hie]
          rw [if_neg (by simp), if_pos hshort]
          rfl
        · -- full chunk: recurse past the chunk's last revision
          set F := rowsFrom mr rows with hF
          set C := F.take restoreChunkKeys with hC
          set D := F.drop restoreChunkKeys with hD
          have hCD : C ++ D = F := List.take_append_drop _ _
          have hlenC : C.length = restoreChunkKeys := by
            rw [hC, List.length_take]
            omega
          have hCne : C ≠ [] := by
            intro hc
            rw [hc] at hlenC
            simp [restoreChunkKeys] at hlenC
          have hCie : C.isEmpty = false := by
            cases hE : C.isEmpty
            · rfl
            · exact absurd (List.isEmpty_iff.mp hE) hCne
          obtain ⟨lastR, hlast⟩ : ∃ lastR, C.getLast? = some lastR :=
            Option.isSome_iff_exists.mp (List.getLast?_isSome.mpr hCne)
          have hsplit : C.dropLast ++ [lastR] = C :=
            List.dropLast_append_getLast? lastR hlast
          have hlastC : lastR ∈ C := by
            rw [← hsplit]
            exact List.mem_append_right _ (by simp)
          have hFsub : ∀ r ∈ F, r ∈ rows := by
            intro r hr
            rw [hF] at hr
            exact List.mem_of_mem_filter hr
          have hFwf : ∀ r ∈ F, WFKey r.1 := fun r hr => hw r (hFsub r hr)
          have hFpair : F.Pairwise (fun a b => revLtP (rowRev a) (rowRev b)) := by
            rw [hF]
            exact hp.sublist (List.filter_sublist rows)
          have hlastF : lastR ∈ F := by
            rw [← hCD]
            exact List.mem_append_left D hlastC
          have hWlast : WFKey lastR.1 := hFwf lastR hlastF
          have hcross : ∀ a ∈ C, ∀ b ∈ D, revLtP (rowRev a) (rowRev b) := by
            have hFp2 : (C ++ D).Pairwise (fun a b => revLtP (rowRev a) (rowRev b)) := by
              rw [hCD]
              exact hFpair
            exact (List.pairwise_append.mp hFp2).2.2
          have hCpair : C.Pairwise (fun a b => revLtP (rowRev a) (rowRev b)) :=
            hFpair.sublist (List.take_sublist _ _)
          have haleLast : ∀ a ∈ C, revLeP (rowRev a) (rowRev lastR) := by
            intro a ha
            have hpair2 : (C.dropLast ++ [lastR]).Pairwise
                (fun a b => revLtP (rowRev a) (rowRev b)) := by
              rw [hsplit]
              exact hCpair
            have ha2 : a ∈ C.dropLast ++ [lastR] := by
              rw [hsplit]
              exact ha
            rcases List.mem_append.mp ha2 with ha' | ha'
            · exact revLeP_of_ltP ((List.pairwise_append.mp hpair2).2.2 a ha' lastR (by simp))
            · rw [List.mem_singleton.mp ha']
              exact revLeP_refl _
          set L := rowRev lastR with hL
          have hLmain : L.main = lastR.1.main := rfl
          have hLsub : L.sub = lastR.1.sub := rfl
          have hm1' : i63 L.main := by
            obtain ⟨a1, a2, a3, a4⟩ := hWlast
            exact ⟨by omega, by omega⟩
          have hm2' : i63 (L.sub + 1) := by
            obtain ⟨a1, a2, a3, a4⟩ := hWlast
            exact ⟨by omega, by omega⟩
          have hmrL : revLeP mr L := by
            have h2 : lastR ∈ rowsFrom mr rows := by
              rw [← hF]
              exact hlastF
            unfold rowsFrom at h2
            have h3 := (List.mem_filter.mp h2).2
            exact of_decide_eq_true h3
          have hLlt : revLtP L ⟨L.main, L.sub + 1⟩ := revLtP_succSub_self L
          have hDeq : rowsFrom ⟨L.main, L.sub + 1⟩ rows = D := by
            have hstep1 : rowsFrom ⟨L.main, L.sub + 1⟩ rows
                = F.filter (fun r => decide (revLeP ⟨L.main, L.sub + 1⟩ (rowRev r))) := by
              rw [hF]
              unfold rowsFrom
              rw [List.filter_filter]
              apply List.filter_congr
              intro r _
              cases hr' : decide (revLeP ⟨L.main, L.sub + 1⟩ (rowRev r))
              · simp
              · have hle : revLeP ⟨L.main, L.sub + 1⟩ (rowRev r) := of_decide_eq_true hr'
                have h4 : revLeP mr (rowRev r) :=
                  revLeP_trans (revLeP_trans hmrL (revLeP_of_ltP hLlt)) hle
                simp [decide_eq_true h4]
            rw [hstep1, ← hCD, List.filter_append]
            have hCnil : C.filter
                (fun r => decide (revLeP ⟨L.main, L.sub + 1⟩ (rowRev r))) = [] := by
              rw [List.filter_eq_nil_iff]
              intro a ha
              have h5 : revLtP (rowRev a) ⟨L.main, L.sub + 1⟩ :=
                revLtP_of_leP_ltP (haleLast a ha) hLlt
              simp [decide_eq_false (not_revLeP_of_ltP h5)]
            have hDall : D.filter
                (fun r => decide (revLeP ⟨L.main, L.sub + 1⟩ (rowRev r))) = D := by
              rw [List.filter_eq_self]
              intro b hb
              exact decide_eq_true (revLtP_succSub.mp (hcross lastR hlastC b hb))
            rw [hCnil, hDall, List.nil_append]
          have hDlen : D.length < fuel := by
            have h1 : D.length = F.length - restoreChunkKeys := List.length_drop _ _
            have h2 : restoreChunkKeys ≤ F.length := le_of_not_lt hshort
            have h3 : F.length < fuel + 1 := hlen
            have h4 : 0 < restoreChunkKeys := by norm_num [restoreChunkKeys]
            omega
          obtain ⟨cs', hflat', hloop'⟩ :=
            ih ⟨L.main, L.sub + 1⟩ hm1' hm2' (by rw [hDeq]; exact hDlen) (applyChunk acc C)
          refine ⟨C :: cs', ?_, ?_⟩
          · rw [List.flatten_cons, hflat', hDeq, hCD]
          · simp only [restoreLoop, hchunk, ← hC, hCie]
            rw [if_neg (by simp), if_neg (by omega), hlast]
            simp only []
            rw [decodeKeyRev hWlast]
            rw [List.foldl_cons]
            exact hloop'

theorem rowsFrom_one (rows : List Row) (hw : ∀ r ∈ rows, WFKey r.1) :
    rowsFrom ⟨1, 0⟩ rows = rows := by
  unfold rowsFrom
  rw [List.filter_eq_self]
  intro r hr
  apply decide_eq_true
  obtain ⟨a1, a2, a3, a4⟩ := hw r hr
  have hm : (rowRev r).main = r.1.main := rfl
  have hs : (rowRev r).sub = r.1.sub := rfl
  by_cases h1 : r.1.main = 1 ∧ r.1.sub = 0
  · right
    show (⟨1, 0⟩ : Revision) = ⟨r.1.main, r.1.sub⟩
    rw [h1.1, h1.2]
  · left
    unfold revLtP
    rw [hm, hs]
    show 1 < r.1.main ∨ (1 = r.1.main ∧ 0 < r.1.sub)
    omega

theorem Compact_currentRev (s : Store) (rev : Int) :
    (s.Compact rev).1.currentRev = s.currentRev := by
  unfold Store.Compact
  split_ifs <;> rfl

theorem Compact_inv (s : Store) (rev : Int) (h : s.compactMainRev ≤ s.currentRev) :
    (s.Compact rev).1.compactMainRev ≤ (s.Compact rev).1.currentRev := by
  unfold Store.Compact
  split_ifs with h1 h2
  · exact h
  · exact h
  · show rev ≤ s.currentRev
    omega

theorem main_le_of_revLtP {a b : Row} (h : revLtP (rowRev a) (rowRev b)) :
    a.1.main ≤ b.1.main := by
  unfold revLtP at h
  have h1 : (rowRev a).main = a.1.main := rfl
  have h2 : (rowRev b).main = b.1.main := rfl
  omega

theorem foldl_max_main_le (l : List Row) : ∀ (acc x : Int), acc ≤ x →
    (∀ a ∈ l, a.1.main ≤ x) → l.foldl (fun a r => max a r.1.main) acc ≤ x := by
  induction l with
  | nil => intro acc x h _; exact h
  | cons b t ih =>
      intro acc x h hb
      rw [List.foldl_cons]
      exact ih _ x (max_le h (hb b (by simp))) (fun a ha => hb a (by simp [ha]))

theorem lastMain_eq_largestMain (rows : List Row) (d : Int) (hne : rows ≠ [])
    (hw : ∀ r ∈ rows, WFKey r.1)
    (hp : rows.Pairwise fun a b => revLtP (rowRev a) (rowRev b)) :
    (rows.map (fun r => r.1.main)).getLastD d = largestMain rows := by
  rcases List.eq_nil_or_concat rows with h | ⟨init, lastR, rfl⟩
  · exact absurd h hne
  · simp only [List.concat_eq_append] at hne hw hp ⊢
    rw [List.map_append, getLastD_append]
    show lastR.1.main = largestMain (init ++ [lastR])
    unfold largestMain
    rw [List.foldl_append]
    show lastR.1.main = max (init.foldl (fun a r => max a r.1.main) 0) lastR.1.main
    have hmem : lastR ∈ init ++ [lastR] := List.mem_append_right _ (by simp)
    have h0 : (0 : Int) ≤ lastR.1.main := by
      obtain ⟨a1, _, _, _⟩ := hw lastR hmem
      omega
    have hall : ∀ a ∈ init, a.1.main ≤ lastR.1.main := by
      intro a ha
      exact main_le_of_revLtP
        ((List.pairwise_append.mp hp).2.2 a ha lastR (by simp))
    rw [max_eq_right (foldl_max_main_le init 0 lastR.1.main h0 hall)]

/-- Characterization of `restore` on a well-formed backend: the loop returns,
`currentRev` after the scan is the last row's `main` (or the reset value), and
the rest of `restore` is the lift, the re-submission decision, and possibly
the re-submitted `Compact`. -/
theorem restoreFn_spec (s : Store)
    (hw : ∀ r ∈ s.keyRows, WFKey r.1)
    (hp : s.keyRows.Pairwise (fun a b => revLtP (rowRev a) (rowRev b))) :
    ∃ ti : TreeIndex,
      s.restoreFn =
        some (if (if schedRaw s ≤ seedCompactRev s then 0 else schedRaw s) ≠ 0 then
          ((({ s with
              currentRev := if scanCur s < seedCompactRev s then seedCompactRev s
                else scanCur s,
              compactMainRev := seedCompactRev s,
              kvindex := ti } : Store).Compact
                (if schedRaw s ≤ seedCompactRev s then 0 else schedRaw s)).1,
            some (if schedRaw s ≤ seedCompactRev s then 0 else schedRaw s))
        else
          ({ s with
              currentRev := if scanCur s < seedCompactRev s then seedCompactRev s
                else scanCur s,
              compactMainRev := seedCompactRev s,
              kvindex := ti }, none)) := by
  obtain ⟨cs, hflat, hloop⟩ := restoreLoop_done s.keyRows hw hp (s.keyRows.length + 1)
    ⟨1, 0⟩ ⟨by norm_num, by norm_num⟩ ⟨by norm_num, by norm_num⟩
    (by rw [rowsFrom_one s.keyRows hw]; omega) ⟨s.currentRev, s.kvindex, [], []⟩
  have hloop' : restoreLoop (s.keyRows.length + 1) s.keyRows minRevBytes
      ⟨s.currentRev, s.kvindex, [], []⟩
      = some (cs.foldl applyChunk ⟨s.currentRev, s.kvindex, [], []⟩) := hloop
  have hcur : (cs.foldl applyChunk
      (⟨s.currentRev, s.kvindex, [], []⟩ : RestoreAcc)).currentRev = scanCur s := by
    rw [currentRev_foldl_applyChunk, hflat, rowsFrom_one s.keyRows hw]
    show (s.keyRows.map
        (fun r => (bytesToRev ((encodeKey r.1).take 16)).main)).getLastD s.currentRev
      = scanCur s
    unfold scanCur
    congr 1
    apply List.map_congr_left
    intro r hr
    rw [decodeKeyRev (hw r hr)]
    rfl
  refine ⟨(cs.foldl applyChunk ⟨s.currentRev, s.kvindex, [], []⟩).kvindex, ?_⟩
  unfold Store.restoreFn
  rw [hloop', Option.map_some']
  simp only []
  rw [hcur]

/-- Core consequences of `restoreFn_spec`: the loop returns, the final
`currentRev` is the lift of the scanned value, and the re-submission decision
is the zero-test of the scheduled revision. -/
theorem restoreFn_core (s : Store)
    (hw : ∀ r ∈ s.keyRows, WFKey r.1)
    (hp : s.keyRows.Pairwise (fun a b => revLtP (rowRev a) (rowRev b))) :
    ∃ s' rr, s.restoreFn = some (s', rr) ∧
      s'.currentRev
        = (if scanCur s < seedCompactRev s then seedCompactRev s else scanCur s) ∧
      rr = (if (if schedRaw s ≤ seedCompactRev s then 0 else schedRaw s) ≠ 0
            then some (if schedRaw s ≤ seedCompactRev s then 0 else schedRaw s)
            else none) ∧
      s'.compactMainRev ≤ s'.currentRev := by
  obtain ⟨ti, heq⟩ := restoreFn_spec s hw hp
  have hinv : seedCompactRev s
      ≤ (if scanCur s < seedCompactRev s then seedCompactRev s else scanCur s) := by
    split_ifs with hc <;> omega
  by_cases hsc : (if schedRaw s ≤ seedCompactRev s then 0 else schedRaw s) ≠ 0
  · rw [if_pos hsc] at heq
    refine ⟨_, _, heq, by rw [Compact_currentRev], by rw [if_pos hsc], ?_⟩
    exact Compact_inv _ _ hinv
  · rw [if_neg hsc] at heq
    exact ⟨_, _, heq, rfl, by rw [if_neg hsc], hinv⟩

/-! ### Claim C4: the revision invariant -/

/-- **C4.** A freshly constructed store has `currentRev = 1` and
`compactMainRev = -1`; `Compact` preserves `compactMainRev ≤ currentRev`
(it refuses `rev > currentRev` before setting `compactMainRev`); and whenever
`restore` completes on a well-formed backend it establishes
`compactMainRev ≤ currentRev` (it lifts `currentRev` to `compactMainRev` when
the scan left it smaller, and a re-submitted compaction preserves the
invariant). -/
theorem store_rev_invariant :
    (∀ meta rows, (NewStoreInit meta rows).currentRev = 1 ∧
        (NewStoreInit meta rows).compactMainRev = -1) ∧
    (∀ (s : Store) (rev : Int), s.compactMainRev ≤ s.currentRev →
        (s.Compact rev).1.compactMainRev ≤ (s.Compact rev).1.currentRev) ∧
    (∀ s : Store, (∀ r ∈ s.keyRows, WFKey r.1) →
        s.keyRows.Pairwise (fun a b => revLtP (rowRev a) (rowRev b)) →
        ∀ s' rr, s.restoreFn = some (s', rr) →
          s'.compactMainRev ≤ s'.currentRev) := by
  refine ⟨fun meta rows => ⟨rfl, rfl⟩, fun s rev h => Compact_inv s rev h, ?_⟩
  intro s hw hp s' rr h
  obtain ⟨s'', rr'', heq, _, _, hinv⟩ := restoreFn_core s hw hp
  rw [heq, Option.some_inj] at h
  have h1 : s'' = s' := congrArg Prod.fst h
  rw [← h1]
  exact hinv

theorem store_rev_invariant_witness :
    ((NewStoreInit [] []).currentRev = 1 ∧ (NewStoreInit [] []).compactMainRev = -1) ∧
    ((store1.Compact 7).1.compactMainRev ≤ (store1.Compact 7).1.currentRev) ∧
    (store0.compactMainRev ≤ store0.currentRev) :=
  ⟨store_rev_invariant.1 [] [],
   store_rev_invariant.2.1 store1 7 (by decide),
   store_rev_invariant.2.2 store0 (by decide) List.Pairwise.nil store0 none (by decide)⟩

/-! ### Claim C5: `currentRev` after recovery -/

/-- **C5.** After `restore` completes on a well-formed backend, `currentRev`
equals the maximum of the largest main revision appearing among the rows of
the `key` bucket and the `compactMainRev` read from `meta/finishedCompactRev`
(`restoreChunk` sets `currentRev` to each scanned row's `main` in ascending
scan order, and `restore` then lifts `currentRev` to `compactMainRev` if it is
smaller); when the bucket is empty and no compaction is recorded,
`currentRev = 1`. -/
theorem restore_currentRev (s : Store)
    (hw : ∀ r ∈ s.keyRows, WFKey r.1)
    (hp : s.keyRows.Pairwise (fun a b => revLtP (rowRev a) (rowRev b)))
    (hcur : s.currentRev = 1) (hcmr : s.compactMainRev = -1) :
    ∃ s' rr, s.restoreFn = some (s', rr) ∧
      (s.keyRows ≠ [] →
        s'.currentRev = max (largestMain s.keyRows) (seedCompactRev s)) ∧
      (s.keyRows = [] ∧ lookupA s.meta finishedCompactKeyName = none →
        s'.currentRev = 1) := by
  obtain ⟨s', rr, heq, hcv, _, _⟩ := restoreFn_core s hw hp
  refine ⟨s', rr, heq, ?_, ?_⟩
  · intro hne
    have hscan : scanCur s = largestMain s.keyRows := by
      unfold scanCur
      exact lastMain_eq_largestMain s.keyRows s.currentRev hne hw hp
    rw [hcv, hscan]
    rcases lt_or_ge (largestMain s.keyRows) (seedCompactRev s) with hc | hc
    · rw [if_pos hc, max_eq_right (le_of_lt hc)]
    · rw [if_neg (not_lt.mpr hc), max_eq_left hc]
  · rintro ⟨hnil, hfin⟩
    have hscan : scanCur s = 1 := by
      unfold scanCur
      rw [hnil, hcur]
      rfl
    have hseed : seedCompactRev s = -1 := by
      unfold seedCompactRev
      rw [hfin, hcmr]
    rw [hcv, hscan, hseed, if_neg (by omega)]

def kvA : KeyValue := ⟨[97], [118], 2, 1, 0⟩

def rowsW : List Row := [(⟨2, 0, false⟩, kvA)]

def storeW : Store := NewStoreInit [] rowsW

theorem restore_currentRev_witness :
    ∃ s' rr, storeW.restoreFn = some (s', rr) ∧
      (storeW.keyRows ≠ [] →
        s'.currentRev = max (largestMain storeW.keyRows) (seedCompactRev storeW)) ∧
      (storeW.keyRows = [] ∧ lookupA storeW.meta finishedCompactKeyName = none →
        s'.currentRev = 1) :=
  restore_currentRev storeW (by decide)
    (by
      refine List.Pairwise.cons ?_ List.Pairwise.nil
      intro y hy
      exact absurd hy (List.not_mem_nil y)) (by decide) (by decide)

/-! ### Claim C6: resuming a scheduled compaction -/

/-- **C6, amended.** During restore, `Compact(scheduledCompact)` is
re-submitted exactly when the main revision stored under
`meta/scheduledCompactRev` is **non-zero** and strictly greater than the
`compactMainRev` seeded from `meta/finishedCompactRev` (`restore` encodes "no
scheduled compaction" as `0`, so a stored main of `0` is treated as absent);
in particular, when the entry is absent, zero, or `≤ finishedCompactRev`, no
compaction is re-issued. -/
theorem restore_resume (s : Store)
    (hw : ∀ r ∈ s.keyRows, WFKey r.1)
    (hp : s.keyRows.Pairwise (fun a b => revLtP (rowRev a) (rowRev b))) :
    ∃ s' rr, s.restoreFn = some (s', rr) ∧
      rr = (if schedRaw s ≠ 0 ∧ seedCompactRev s < schedRaw s
            then some (schedRaw s) else none) := by
  obtain ⟨s', rr, heq, _, hrr, _⟩ := restoreFn_core s hw hp
  refine ⟨s', rr, heq, ?_⟩
  rw [hrr]
  by_cases h1 : schedRaw s ≤ seedCompactRev s
  · rw [if_pos h1, if_neg (by simp), if_neg (fun hc => absurd hc.2 (not_lt.mpr h1))]
  · rw [if_neg h1]
    by_cases h2 : schedRaw s = 0
    · rw [if_neg (by omega), if_neg (fun hc => absurd h2 hc.1)]
    · rw [if_pos h2, if_pos ⟨h2, by omega⟩]

theorem restore_resume_witness :
    ∃ s' rr, storeW.restoreFn = some (s', rr) ∧
      rr = (if schedRaw storeW ≠ 0 ∧ seedCompactRev storeW < schedRaw storeW
            then some (schedRaw storeW) else none) :=
  restore_resume storeW (by decide)
    (by
      refine List.Pairwise.cons ?_ List.Pairwise.nil
      intro y hy
      exact absurd hy (List.not_mem_nil y))

def storeC6 : Store := NewStoreInit [(scheduledCompactKeyName, revToBytes ⟨0, 0⟩)] []

/-- **C6, counterexample.** The claim as stated fails on the code: a backend
can hold `scheduledCompactRev` encoding main `0` while `finishedCompactRev` is
absent (reachable: on a fresh store `Compact(0)` passes both guards and
persists exactly that entry, as the last two conjuncts show).  Then the stored
main `0` is strictly greater than the seeded `compactMainRev = -1`, yet
restore re-submits nothing, because `restore` uses `0` as its "no scheduled
compaction" sentinel. -/
theorem restore_resume_cex :
    lookupA storeC6.meta scheduledCompactKeyName = some (revToBytes ⟨0, 0⟩) ∧
    lookupA storeC6.meta finishedCompactKeyName = none ∧
    (bytesToRev (revToBytes ⟨0, 0⟩)).main = 0 ∧
    seedCompactRev storeC6 < (bytesToRev (revToBytes ⟨0, 0⟩)).main ∧
    storeC6.restoreFn.map (fun p => p.2) = some none ∧
    lookupA ((store0.Compact 0).1).meta scheduledCompactKeyName
      = some (revToBytes ⟨0, 0⟩) ∧
    (store0.Compact 0).2.2.1 = none := by
  refine ⟨?_, ?_, ?_, ?_, ?_, ?_, ?_⟩ <;> decide

/-! ### Claim C9: the scan loop terminates and is exhaustive -/

/-- **C9.** The restore scan loop terminates on every finite well-formed
backend and visits each row exactly once: with fuel `|rows| + 1` starting from
`min = rev(main:1)` it returns, and the concatenation of the chunks handed to
`restoreChunk` (the `processed` trace) is exactly the row list, in order.
Moreover the advanced bound — `(main, sub+1)` decoded from the first 16 bytes
of a chunk's last row key — is strictly greater in byte order than that row's
key, even when that key is a 17-byte tombstone. -/
theorem restore_scan_complete (rows : List Row)
    (hw : ∀ r ∈ rows, WFKey r.1)
    (hp : rows.Pairwise (fun a b => revLtP (rowRev a) (rowRev b)))
    (acc : RestoreAcc) (hacc : acc.processed = []) :
    (∃ acc', restoreLoop (rows.length + 1) rows minRevBytes acc = some acc' ∧
        acc'.processed = rows) ∧
    (∀ k : RevKey, WFKey k →
        byteLt (encodeKey k)
          (revToBytes ⟨(bytesToRev ((encodeKey k).take 16)).main,
                       (bytesToRev ((encodeKey k).take 16)).sub + 1⟩) = true) := by
  constructor
  · obtain ⟨cs, hflat, hloop⟩ := restoreLoop_done rows hw hp (rows.length + 1) ⟨1, 0⟩
      ⟨by norm_num, by norm_num⟩ ⟨by norm_num, by norm_num⟩
      (by rw [rowsFrom_one rows hw]; omega) acc
    refine ⟨cs.foldl applyChunk acc, hloop, ?_⟩
    rw [processed_foldl_applyChunk, hacc, List.nil_append, hflat, rowsFrom_one rows hw]
  · intro k hk
    rw [decodeKeyRev hk]
    have hb := hk
    obtain ⟨a1, a2, a3, a4⟩ := hb
    have e1 : (⟨k.rev.main, k.rev.sub + 1⟩ : Revision).main = k.main := rfl
    have e2 : (⟨k.rev.main, k.rev.sub + 1⟩ : Revision).sub = k.sub + 1 := rfl
    rw [byteLt_encodeKey_rev hk ⟨by omega, by omega⟩ ⟨by omega, by omega⟩]
    exact revLtP_succSub_self k.rev

def rowsW2 : List Row := [(⟨2, 0, false⟩, kvA), (⟨3, 0, true⟩, kvA)]

def accW : RestoreAcc := ⟨1, [], [], []⟩

theorem restore_scan_complete_witness :
    (∃ acc', restoreLoop (rowsW2.length + 1) rowsW2 minRevBytes accW = some acc' ∧
        acc'.processed = rowsW2) ∧
    (∀ k : RevKey, WFKey k →
        byteLt (encodeKey k)
          (revToBytes ⟨(bytesToRev ((encodeKey k).take 16)).main,
                       (bytesToRev ((encodeKey k).take 16)).sub + 1⟩) = true) :=
  restore_scan_complete rowsW2 (by decide)
    (by
      refine List.Pairwise.cons ?_ (List.Pairwise.cons ?_ List.Pairwise.nil)
      · intro y hy
        rw [List.mem_singleton.mp hy]
        decide
      · intro y hy
        exact absurd hy (List.not_mem_nil y))
    accW rfl

/-! ### Claim C10: tombstones during chunked restore -/

theorem lookupA_some_mem_keys {α : Type} {un : List (List Nat × α)} {k : List Nat}
    {v : α} (h : lookupA un k = some v) : k ∈ mapKeys un := by
  unfold lookupA at h
  cases hf : un.find? (fun p => p.1 == k) with
  | none => rw [hf] at h; simp at h
  | some pair =>
      have hmem : pair ∈ un := List.mem_of_find?_eq_some hf
      have hkey : pair.1 = k := by
        have := List.find?_some hf
        simpa using this
      rw [← hkey]
      exact List.mem_map_of_mem _ hmem

theorem lookupA_none_of_not_mem {α : Type} {un : List (List Nat × α)} {k : List Nat}
    (h : k ∉ mapKeys un) : lookupA un k = none := by
  cases hl : lookupA un k with
  | none => rfl
  | some v => exact absurd (lookupA_some_mem_keys hl) h

theorem mem_mapKeys_setA {α : Type} (un : List (List Nat × α)) (k k' : List Nat)
    (v : α) : k' ∈ mapKeys (setA un k v) ↔ k' = k ∨ k' ∈ mapKeys un := by
  simp only [mapKeys, setA, eraseA, List.map_cons, List.mem_cons, List.mem_map,
    List.mem_filter]
  constructor
  · rintro (h | ⟨p, ⟨hp, _⟩, he⟩)
    · exact Or.inl h
    · exact Or.inr ⟨p, hp, he⟩
  · rintro (h | ⟨p, hp, he⟩)
    · exact Or.inl h
    · by_cases hk : k' = k
      · exact Or.inl hk
      · refine Or.inr ⟨p, ⟨hp, ?_⟩, he⟩
        simp [he ▸ hk]

theorem chunkRevs_eraseA_subset (un : List (List Nat × keyIndex)) (k : List Nat) :
    ∀ rv ∈ chunkRevs (eraseA un k), rv ∈ chunkRevs un := by
  intro rv h
  simp only [chunkRevs, eraseA, List.mem_flatten, List.mem_map, List.mem_filter] at h ⊢
  obtain ⟨l, ⟨p, ⟨hp, _⟩, hl⟩, hrv⟩ := h
  exact ⟨l, ⟨p, hp, hl⟩, hrv⟩

theorem mem_chunkRevs_setA {un : List (List Nat × keyIndex)} {k : List Nat}
    {v : keyIndex} {rv : Revision} (h : rv ∈ chunkRevs (setA un k v)) :
    rv ∈ v.allRevs ∨ rv ∈ chunkRevs un := by
  simp only [setA, chunkRevs, List.map_cons, List.flatten_cons, List.mem_append] at h
  rcases h with h | h
  · exact Or.inl h
  · exact Or.inr (chunkRevs_eraseA_subset un k rv (by simpa [chunkRevs] using h))

theorem lookupA_allRevs_subset {un : List (List Nat × keyIndex)} {k : List Nat}
    {ki : keyIndex} (h : lookupA un k = some ki) :
    ∀ rv ∈ ki.allRevs, rv ∈ chunkRevs un := by
  intro rv hrv
  unfold lookupA at h
  cases hf : un.find? (fun p => p.1 == k) with
  | none => rw [hf] at h; simp at h
  | some pair =>
      rw [hf] at h
      have hki : pair.2 = ki := by simpa using h
      have hmem : pair ∈ un := List.mem_of_find?_eq_some hf
      simp only [chunkRevs, List.mem_flatten, List.mem_map]
      exact ⟨ki.allRevs, ⟨pair, hmem, by rw [hki]⟩, hrv⟩

theorem allRevs_putRev (ki : keyIndex) (m s : Int) :
    (ki.putRev m s).allRevs = ki.allRevs ++ [⟨m, s⟩] := by
  unfold keyIndex.putRev keyIndex.allRevs
  cases hrev : ki.generations.reverse with
  | nil =>
      have hg : ki.generations = [] := by
        rw [← List.reverse_reverse ki.generations, hrev]
        rfl
      simp [hg, pushRev]
  | cons g rest =>
      have hg : ki.generations = rest.reverse ++ [g] := by
        rw [← List.reverse_reverse ki.generations, hrev]
        simp
      simp [hg, pushRev]

theorem allRevs_tombstoneRev (ki : keyIndex) (m s : Int) :
    (ki.tombstoneRev m s).allRevs = ki.allRevs ++ [⟨m, s⟩] := by
  unfold keyIndex.tombstoneRev
  show (List.map generation.revs
      ((ki.putRev m s).generations ++ [⟨0, ⟨0, 0⟩, []⟩])).flatten = _
  rw [List.map_append, List.flatten_append]
  have h := allRevs_putRev ki m s
  unfold keyIndex.allRevs at h
  rw [h]
  simp [keyIndex.allRevs]

theorem allRevs_restoreRec (key : List Nat) (c mo : Revision) (ver : Int) :
    (keyIndex.restoreRec key c mo ver).allRevs = [mo] := by
  simp [keyIndex.restoreRec, keyIndex.allRevs]

theorem mem_keys_chunkStep_f (st : ChunkState) (r : Row) (k : List Nat)
    (htomb : r.1.tomb = false) :
    k ∈ mapKeys (chunkStep st r).unordered ↔
      k = r.2.key ∨ k ∈ mapKeys st.unordered := by
  simp only [chunkStep, isTombstone_encodeKey, htomb, Bool.false_eq_true, if_false]
  cases hl : lookupA st.unordered r.2.key
  · exact mem_mapKeys_setA _ _ _ _
  · exact mem_mapKeys_setA _ _ _ _

theorem mem_keys_chunkStep_t (st : ChunkState) (r : Row) (k : List Nat)
    (htomb : r.1.tomb = true) :
    k ∈ mapKeys (chunkStep st r).unordered ↔ k ∈ mapKeys st.unordered := by
  simp only [chunkStep, isTombstone_encodeKey, htomb, eq_self_iff_true, if_true]
  cases hl : lookupA st.unordered r.2.key
  · exact Iff.rfl
  · rw [mem_mapKeys_setA]
    constructor
    · rintro (h | h)
      · rw [h]
        exact lookupA_some_mem_keys hl
      · exact h
    · exact Or.inr

theorem mem_keys_chunkFold (rows : List Row) :
    ∀ (st : ChunkState) (k : List Nat),
      k ∈ mapKeys (rows.foldl chunkStep st).unordered ↔
        k ∈ mapKeys st.unordered ∨ ∃ r ∈ rows, r.1.tomb = false ∧ r.2.key = k := by
  induction rows with
  | nil => intro st k; simp
  | cons r t ih =>
      intro st k
      rw [List.foldl_cons, ih]
      rcases Bool.eq_false_or_eq_true r.1.tomb with htomb | htomb
      · rw [mem_keys_chunkStep_t st r k htomb]
        constructor
        · rintro (h | ⟨r', hr', hc⟩)
          · exact Or.inl h
          · exact Or.inr ⟨r', by simp [hr'], hc⟩
        · rintro (h | ⟨r', hr', hc⟩)
          · exact Or.inl h
          · rcases List.mem_cons.mp hr' with he | ht
            · rw [← he] at htomb
              rw [hc.1] at htomb
              simp at htomb
            · exact Or.inr ⟨r', ht, hc⟩
      · rw [mem_keys_chunkStep_f st r k htomb]
        constructor
        · rintro ((h | h) | ⟨r', hr', hc⟩)
          · exact Or.inr ⟨r, by simp, htomb, h.symm⟩
          · exact Or.inl h
          · exact Or.inr ⟨r', by simp [hr'], hc⟩
        · rintro (h | ⟨r', hr', hc⟩)
          · exact Or.inl (Or.inr h)
          · rcases List.mem_cons.mp hr' with he | ht
            · exact Or.inl (Or.inl (he ▸ hc.2).symm)
            · exact Or.inr ⟨r', ht, hc⟩

theorem revs_chunkStep_f (st : ChunkState) (r : Row) (rv : Revision)
    (htomb : r.1.tomb = false)
    (h : rv ∈ chunkRevs (chunkStep st r).unordered) :
    rv ∈ chunkRevs st.unordered ∨ rv = bytesToRev ((encodeKey r.1).take 16) := by
  revert h
  simp only [chunkStep, isTombstone_encodeKey, htomb, Bool.false_eq_true, if_false]
  cases hl : lookupA st.unordered r.2.key
  · intro h
    rcases mem_chunkRevs_setA h with h1 | h1
    · rw [allRevs_restoreRec] at h1
      exact Or.inr (List.mem_singleton.mp h1)
    · exact Or.inl h1
  · intro h
    rcases mem_chunkRevs_setA h with h1 | h1
    · rw [allRevs_putRev] at h1
      rcases List.mem_append.mp h1 with h2 | h2
      · exact Or.inl (lookupA_allRevs_subset hl rv h2)
      · exact Or.inr (List.mem_singleton.mp h2)
    · exact Or.inl h1

theorem revs_chunkStep_t (st : ChunkState) (r : Row) (rv : Revision)
    (htomb : r.1.tomb = true)
    (h : rv ∈ chunkRevs (chunkStep st r).unordered) :
    rv ∈ chunkRevs st.unordered ∨
      (rv = bytesToRev ((encodeKey r.1).take 16) ∧
        r.2.key ∈ mapKeys st.unordered) := by
  revert h
  simp only [chunkStep, isTombstone_encodeKey, htomb, eq_self_iff_true, if_true]
  cases hl : lookupA st.unordered r.2.key
  · intro h
    exact Or.inl h
  · intro h
    rcases mem_chunkRevs_setA h with h1 | h1
    · rw [allRevs_tombstoneRev] at h1
      rcases List.mem_append.mp h1 with h2 | h2
      · exact Or.inl (lookupA_allRevs_subset hl rv h2)
      · exact Or.inr ⟨List.mem_singleton.mp h2, lookupA_some_mem_keys hl⟩
    · exact Or.inl h1

theorem revs_chunkFold (rows : List Row) :
    ∀ (st : ChunkState) (rv : Revision),
      rv ∈ chunkRevs (rows.foldl chunkStep st).unordered →
      rv ∈ chunkRevs st.unordered ∨
        ∃ (p q : List Row) (r : Row), rows = p ++ r :: q ∧
          rv = bytesToRev ((encodeKey r.1).take 16) ∧
          (r.1.tomb = false ∨
            r.2.key ∈ mapKeys (p.foldl chunkStep st).unordered) := by
  induction rows with
  | nil => intro st rv h; exact Or.inl h
  | cons r t ih =>
      intro st rv h
      rw [List.foldl_cons] at h
      rcases ih (chunkStep st r) rv h with h1 | ⟨p, q, r', hpq, hrv, hcond⟩
      · rcases Bool.eq_false_or_eq_true r.1.tomb with htomb | htomb
        · rcases revs_chunkStep_t st r rv htomb h1 with h2 | ⟨h2, h3⟩
          · exact Or.inl h2
          · exact Or.inr ⟨[], t, r, rfl, h2, Or.inr (by simpa using h3)⟩
        · rcases revs_chunkStep_f st r rv htomb h1 with h2 | h2
          · exact Or.inl h2
          · exact Or.inr ⟨[], t, r, rfl, h2, Or.inl htomb⟩
      · refine Or.inr ⟨r :: p, q, r', by rw [List.cons_append, hpq], hrv, ?_⟩
        rcases hcond with hc | hc
        · exact Or.inl hc
        · right
          rw [List.foldl_cons]
          exact hc

theorem decomp_unique {α β : Type} (f : α → β) :
    ∀ (p pre : List α) (r trow : α) (q post : List α),
      p ++ r :: q = pre ++ trow :: post →
      ((pre ++ trow :: post).map f).Nodup → f r = f trow →
      p = pre ∧ r = trow ∧ q = post := by
  intro p
  induction p with
  | nil =>
      intro pre r trow q post heq hnd hf
      cases pre with
      | nil =>
          have h1 : r = trow ∧ q = post := by simpa using heq
          exact ⟨rfl, h1.1, h1.2⟩
      | cons x pre' =>
          have h1 : r = x ∧ q = pre' ++ trow :: post := by simpa using heq
          have hmem : f trow ∈ (pre' ++ trow :: post).map f :=
            List.mem_map_of_mem f (by simp)
          rw [List.cons_append, List.map_cons, List.nodup_cons] at hnd
          have hxt : f x = f trow := by rw [← h1.1, hf]
          exact absurd hmem (hxt ▸ hnd.1)
  | cons x p' ih =>
      intro pre r trow q post heq hnd hf
      cases pre with
      | nil =>
          have h1 : x = trow ∧ p' ++ r :: q = post := by simpa using heq
          have hmem : f trow ∈ (p' ++ r :: q).map f := by
            rw [← hf]
            exact List.mem_map_of_mem f (by simp)
          rw [List.nil_append, List.map_cons, List.nodup_cons] at hnd
          rw [h1.2] at hmem
          exact absurd hmem hnd.1
      | cons y pre' =>
          have h1 : x = y ∧ p' ++ r :: q = pre' ++ trow :: post := by simpa using heq
          have hnd' : ((pre' ++ trow :: post).map f).Nodup := by
            rw [List.cons_append, List.map_cons, List.nodup_cons] at hnd
            exact hnd.2
          obtain ⟨e1, e2, e3⟩ := ih pre' r trow q post h1.2 hnd' hf
          exact ⟨by rw [h1.1, e1], e2, e3⟩

/-- **C10.** For every chunk of rows, `restoreChunk` applies a tombstone row
to a provisional key-index record only if a put for the same user key occurred
earlier within the same chunk: a tombstone whose key has no earlier put in the
chunk leaves the `unordered` map unchanged (its key is absent from the map)
and only deletes the key's entry from `keyToLease`, and that tombstone's
revision is never recorded in any record of the returned map — so it never
reaches the rebuilt tree index. -/
theorem restoreChunk_tombstone (pre post : List Row) (trow : Row)
    (cur : Int) (ktl : List (List Nat × Int))
    (htomb : trow.1.tomb = true)
    (hnoput : ∀ r ∈ pre, r.1.tomb = false → r.2.key ≠ trow.2.key)
    (hw : ∀ r ∈ pre ++ trow :: post, WFKey r.1)
    (hp : (pre ++ trow :: post).Pairwise (fun a b => revLtP (rowRev a) (rowRev b))) :
    rowRev trow ∉ chunkRevs (restoreChunkF cur (pre ++ trow :: post) ktl).unordered ∧
    (restoreChunkF cur (pre ++ [trow]) ktl).unordered
      = (restoreChunkF cur pre ktl).unordered ∧
    trow.2.key ∉ mapKeys (restoreChunkF cur (pre ++ [trow]) ktl).unordered ∧
    (restoreChunkF cur (pre ++ [trow]) ktl).keyToLease
      = eraseA (restoreChunkF cur pre ktl).keyToLease trow.2.key := by
  have hkeyabs : trow.2.key ∉ mapKeys
      (restoreChunkF cur pre ktl).unordered := by
    unfold restoreChunkF
    rw [mem_keys_chunkFold]
    rintro (h | ⟨r, hr, hnt, hk⟩)
    · simp [mapKeys] at h
    · exact hnoput r hr hnt hk
  have hnone : lookupA (restoreChunkF cur pre ktl).unordered trow.2.key = none :=
    lookupA_none_of_not_mem hkeyabs
  have hstepform : restoreChunkF cur (pre ++ [trow]) ktl
      = chunkStep (restoreChunkF cur pre ktl) trow := by
    unfold restoreChunkF
    rw [List.foldl_append]
    rfl
  have hstep : (chunkStep (restoreChunkF cur pre ktl) trow).unordered
        = (restoreChunkF cur pre ktl).unordered ∧
      (chunkStep (restoreChunkF cur pre ktl) trow).keyToLease
        = eraseA (restoreChunkF cur pre ktl).keyToLease trow.2.key := by
    simp only [chunkStep, isTombstone_encodeKey, htomb, eq_self_iff_true, if_true,
      hnone]
    exact ⟨by trivial, by trivial⟩
  refine ⟨?_, by rw [hstepform]; exact hstep.1, ?_, by rw [hstepform]; exact hstep.2⟩
  · -- the tombstone's revision is never recorded
    intro hmem
    unfold restoreChunkF at hmem
    rcases revs_chunkFold (pre ++ trow :: post) ⟨cur, [], ktl⟩ (rowRev trow) hmem
      with h | ⟨p, q, r', hpq, hrv, hcond⟩
    · simp [chunkRevs] at h
    · have hr'mem : r' ∈ pre ++ trow :: post := by
        rw [hpq]
        simp
      have hrv' : rowRev r' = rowRev trow := by
        rw [hrv, decodeKeyRev (hw r' hr'mem)]
        rfl
      have hnd : ((pre ++ trow :: post).map rowRev).Nodup := by
        refine List.Pairwise.map _ ?_ hp
        intro a b hab he
        exact absurd (he ▸ hab) (revLtP_irrefl _)
      obtain ⟨hp1, hp2, hp3⟩ :=
        decomp_unique rowRev p pre r' trow q post hpq.symm hnd hrv'
      rcases hcond with hc | hc
      · rw [hp2] at hc
        rw [htomb] at hc
        simp at hc
      · rw [hp1, hp2] at hc
        exact absurd hc hkeyabs
  · rw [hstepform, hstep.1]
    exact hkeyabs

def kvB : KeyValue := ⟨[98], [], 3, 1, 0⟩

def rowP : Row := (⟨2, 0, false⟩, kvA)

def rowT : Row := (⟨3, 0, true⟩, kvB)

theorem restoreChunk_tombstone_witness :
    rowRev rowT ∉ chunkRevs
      (restoreChunkF 1 ([rowP] ++ rowT :: []) []).unordered ∧
    (restoreChunkF 1 ([rowP] ++ [rowT]) []).unordered
      = (restoreChunkF 1 [rowP] []).unordered ∧
    rowT.2.key ∉ mapKeys (restoreChunkF 1 ([rowP] ++ [rowT]) []).unordered ∧
    (restoreChunkF 1 ([rowP] ++ [rowT]) []).keyToLease
      = eraseA (restoreChunkF 1 [rowP] []).keyToLease rowT.2.key :=
  restoreChunk_tombstone [rowP] [] rowT 1 []
    (by decide) (by decide) (by decide)
    (by
      refine List.Pairwise.cons ?_ (List.Pairwise.cons ?_ List.Pairwise.nil)
      · intro y hy
        rw [List.mem_singleton.mp hy]
        decide
      · intro y hy
        exact absurd hy (List.not_mem_nil y))

end Etcd
